import Mathlib

/-!
SymNMF numerical core (`gal_symnf.c`): embedding and verified properties.

Reading conventions of the embedding.

* A C `double` is read as an element of a linearly ordered field `R`; the theorems take
  `R := ℝ`, with `exp` and `sqrt` of `math.h` passed in as functions (`Real.exp`,
  `Real.sqrt`).  Rounding, infinities and NaN are therefore not represented, and a
  quotient with denominator `0` has no meaningful value in the embedding.  Underflow of `exp`
  is the one floating-point effect that can be passed in: an `exp` that returns `0` where
  the exact value lies below half the least positive double.
* A `double **` is a list of rows, each row a list of cells: `Mat R`.  Sizes and indices
  (`int` in C) are natural numbers.
* Every function that reads or writes a cell returns an `Option`: `none` means that the
  C code accessed a cell outside the buffer it indexes (undefined behaviour in C);
  `some x` is a run that stays inside its buffers and yields `x`.
* `malloc`/`calloc` are taken to succeed, so `init_matrix` always yields its zero matrix
  and the `return NULL` branches, all of which guard allocation failure, are not taken.
* A file is the list of its characters, and `fopen` is taken to succeed.
* Claims about which buffers a call modifies are settled on a second embedding of the same
  functions over an explicit heap (`matrix_multiply_heap`, `calculate_symnmf_heap`, ...),
  proved to compute what the functions on matrices compute.
-/

set_option linter.unusedSectionVars false

namespace SymNMF

/-- A `double **`: a list of separately allocated rows. -/
abbrev Mat (R : Type) := List (List R)

section Embedding

variable {R : Type} [LinearOrderedField R]

/-- Constant `MAX_ITER` of `gal_symnf.c`. -/
def MAX_ITER : Nat := 300

/-- Constant `EPSILON` of `gal_symnf.c`. -/
def EPSILON : R := 0.0001

/-- Constant `BETA` of `gal_symnf.c`. -/
def BETA : R := 0.5

/-- Body of a counted loop: `cnt` passes starting at index `i`. -/
def forRange {σ : Type} (body : Nat → σ → Option σ) : Nat → Nat → σ → Option σ
  | 0, _, s => some s
  | cnt + 1, i, s => (body i s).bind (forRange body cnt (i + 1))

/-- The C loop `for (int i = lo; i < hi; i++) body`, threading the state `s`. -/
def forLoop {σ : Type} (lo hi : Nat) (body : Nat → σ → Option σ) (s : σ) : Option σ :=
  forRange body (hi - lo) lo s

/-- Read `m[i][j]`; `none` when the row or the cell does not exist. -/
def mget (m : Mat R) (i j : Nat) : Option R :=
  (m.get? i).bind (fun row => row.get? j)

/-- Write `m[i][j] = v`; `none` when the row or the cell does not exist. -/
def mset (m : Mat R) (i j : Nat) (v : R) : Option (Mat R) :=
  (m.get? i).bind (fun row =>
    if j < row.length then some (m.set i (row.set j v)) else none)

/-- Source function `similarity_measure`: `exp(-0.5 * sum_i (vec1[i] - vec2[i])^2)`. -/
def similarity_measure (exp : R → R) (vec1 vec2 : List R) (size : Nat) : Option R :=
  (forLoop 0 size (fun i sum =>
      (vec1.get? i).bind (fun a =>
      (vec2.get? i).bind (fun b =>
        let diff := a - b
        some (sum + diff * diff)))) (0 : R)).map
    (fun sum => exp (-0.5 * sum))

/-- Source function `vector_sum`: the sum of the first `size` cells of `vec`. -/
def vector_sum (vec : List R) (size : Nat) : Option R :=
  forLoop 0 size (fun i sum => (vec.get? i).map (fun x => sum + x)) (0 : R)

/-- Source function `init_matrix`: `rows` rows of `cols` zeroed cells (`calloc`). -/
def init_matrix (rows cols : Nat) : Mat R :=
  List.replicate rows (List.replicate cols 0)

/-- Source function `create_similarity_matrix`: the upper triangle is computed and mirrored. -/
def create_similarity_matrix (exp : R → R) (num_points dim : Nat) (points : Mat R) :
    Option (Mat R) :=
  forLoop 0 num_points (fun i sim_matrix =>
    forLoop (i + 1) num_points (fun j sim_matrix =>
      (points.get? i).bind (fun pi =>
      (points.get? j).bind (fun pj =>
      (similarity_measure exp pi pj dim).bind (fun v =>
      (mset sim_matrix j i v).bind (fun sim_matrix =>
        mset sim_matrix i j v))))) sim_matrix)
    (init_matrix num_points num_points)

/-- Source function `create_diagonal_matrix`: row sums of the similarity matrix on the diagonal. -/
def create_diagonal_matrix (exp : R → R) (num_points dim : Nat) (points : Mat R) :
    Option (Mat R) :=
  (create_similarity_matrix exp num_points dim points).bind (fun sim_matrix =>
    forLoop 0 num_points (fun i diag_matrix =>
      (sim_matrix.get? i).bind (fun row =>
      (vector_sum row num_points).bind (fun s =>
        mset diag_matrix i i s)))
      (init_matrix num_points num_points))

/-- Source function `matrix_multiply`: `result[i][j] += mat1[i][k] * mat2[k][j]` over a zeroed result. -/
def matrix_multiply (mat1 mat2 : Mat R) (rows1 cols1 cols2 : Nat) : Option (Mat R) :=
  forLoop 0 rows1 (fun i result =>
    forLoop 0 cols2 (fun j result =>
      forLoop 0 cols1 (fun k result =>
        (mget result i j).bind (fun r =>
        (mget mat1 i k).bind (fun a =>
        (mget mat2 k j).bind (fun b =>
          mset result i j (r + a * b))))) result) result)
    (init_matrix rows1 cols2)

/-- Modelled from the spec: `multiply`, which `update_H` calls and `gal_symnf.c` neither
defines nor declares.  The spec's MatrixKernel has `multiply(A, B)` as the dense product
of a `rows(A) × cols(A)` by a `cols(A) × cols(B)` matrix, which is `matrix_multiply`
with the same five arguments. -/
def multiply (mat1 mat2 : Mat R) (rows1 cols1 cols2 : Nat) : Option (Mat R) :=
  matrix_multiply mat1 mat2 rows1 cols1 cols2

/-- Source function `transpose_matrix`: `result[j][i] = matrix[i][j]` into a `cols × rows` result. -/
def transpose_matrix (matrix : Mat R) (rows cols : Nat) : Option (Mat R) :=
  forLoop 0 rows (fun i result =>
    forLoop 0 cols (fun j result =>
      (mget matrix i j).bind (fun v => mset result j i v)) result)
    (init_matrix cols rows)

/-- Source function `copy_matrix`: `memcpy(dest[i], src[i], cols * sizeof(double))` for each row;
the updated `dest` is returned. -/
def copy_matrix (dest src : Mat R) (rows cols : Nat) : Option (Mat R) :=
  forLoop 0 rows (fun i dest =>
    (dest.get? i).bind (fun drow =>
    (src.get? i).bind (fun srow =>
      if cols ≤ drow.length ∧ cols ≤ srow.length then
        some (dest.set i (srow.take cols ++ drow.drop cols))
      else none))) dest

/-- Source function `normalize_similarity_matrix`: `D[i][i] = 1/sqrt(D[i][i])`, then `(D * A) * D`. -/
def normalize_similarity_matrix (exp sqrt : R → R) (num_points dim : Nat) (points : Mat R) :
    Option (Mat R) :=
  (create_similarity_matrix exp num_points dim points).bind (fun A =>
  (create_diagonal_matrix exp num_points dim points).bind (fun D =>
  (forLoop 0 num_points (fun i D =>
      (mget D i i).bind (fun d => mset D i i (1.0 / sqrt d))) D).bind (fun D =>
  (matrix_multiply D A num_points num_points num_points).bind (fun DA =>
  (matrix_multiply DA D num_points num_points num_points).bind (fun DAD =>
    some DAD)))))

/-- Source function `update_H`: one multiplicative update.  The transpose is requested as
`transpose_matrix(H, k, num_points)`, exactly as in the source. -/
def update_H (k num_points : Nat) (norm_matrix H : Mat R) : Option (Mat R) :=
  let next_H : Mat R := init_matrix num_points k
  (multiply norm_matrix H num_points num_points k).bind (fun WH =>
  (transpose_matrix H k num_points).bind (fun H_transpose =>
  (multiply H H_transpose num_points k num_points).bind (fun HH_transpose =>
  (multiply HH_transpose H num_points num_points k).bind (fun HH_transpose_H =>
    forLoop 0 num_points (fun i next_H =>
      forLoop 0 k (fun j next_H =>
        (mget WH i j).bind (fun wh =>
        (mget HH_transpose_H i j).bind (fun den =>
        (mget H i j).bind (fun h =>
          let ratio := wh / den
          mset next_H i j (h * (BETA * ratio + (1 - BETA))))))) next_H) next_H))))

/-- Source function `has_converged`: squared Frobenius distance of `H` and `next_H` below `EPSILON`. -/
def has_converged (k num_points : Nat) (H next_H : Mat R) : Option Bool :=
  (forLoop 0 num_points (fun i norm =>
    forLoop 0 k (fun j norm =>
      (mget next_H i j).bind (fun a =>
      (mget H i j).bind (fun b =>
        let diff := a - b
        some (norm + diff * diff))) ) norm) (0 : R)).map
    (fun norm => decide (norm < EPSILON))

/-- State of the loop of `calculate_symnmf`.  `curr_h` is the caller's buffer `H`
(`curr_h = H` aliases it), `next_H` the newest iterate, `iter` the loop counter;
`updates` counts the applications of `update_H` made so far. -/
structure LoopState (R : Type) where
  curr_h : Mat R
  next_H : Mat R
  iter : Nat
  updates : Nat

/-- The loop `for (iter = 0; iter < MAX_ITER && !has_converged(...); iter++)` of
`calculate_symnmf`, with `fuel = MAX_ITER - iter` passes left. -/
def calculate_symnmf_loop (k num_points : Nat) (norm_matrix : Mat R) :
    Nat → LoopState R → Option (LoopState R)
  | 0, s => some s
  | fuel + 1, s =>
    (has_converged k num_points s.curr_h s.next_H).bind (fun c =>
      if c then some s
      else
        (copy_matrix s.curr_h s.next_H num_points k).bind (fun curr_h =>
        (update_H k num_points norm_matrix curr_h).bind (fun temp =>
          calculate_symnmf_loop k num_points norm_matrix fuel
            { curr_h := curr_h, next_H := temp,
              iter := s.iter + 1, updates := s.updates + 1 })))

/-- The whole run of `calculate_symnmf`: the first update, then the loop. -/
def calculate_symnmf_run (k num_points : Nat) (norm_matrix H : Mat R) :
    Option (LoopState R) :=
  (update_H k num_points norm_matrix H).bind (fun next_H =>
    calculate_symnmf_loop k num_points norm_matrix MAX_ITER
      { curr_h := H, next_H := next_H, iter := 0, updates := 1 })

/-- Source function `calculate_symnmf`: the matrix returned, `next_H` at loop exit. -/
def calculate_symnmf (k num_points : Nat) (norm_matrix H : Mat R) : Option (Mat R) :=
  (calculate_symnmf_run k num_points norm_matrix H).map (fun s => s.next_H)

/-- Values that `get_dimensions` hands back: the returned `int` and the two out-parameters. -/
structure Dimensions where
  ret : Nat
  num_points : Nat
  num_features : Nat

/-- The first loop of `get_dimensions`: `fgetc` until a newline (consumed) or the end of the
file, counting commas; yields the count and the unread rest of the file. -/
def scan_first_line : List Char → Nat → Nat × List Char
  | [], features => (features, [])
  | ch :: rest, features =>
    if ch = '\n' then (features, rest)
    else scan_first_line rest (if ch = ',' then features + 1 else features)

/-- One call of `getline` on the unread part of a file: `none` at the end of the file
(`-1` in C), otherwise the part left unread after the line, whose newline is consumed. -/
def getline : List Char → Option (List Char)
  | [] => none
  | ch :: rest => some (if ch = '\n' then rest else (getline rest).getD [])

/-- The loop `while (getline(&line, &len, file) != -1) (*num_points)++` with `fuel` calls
of `getline` allowed; each successful call consumes at least one character. -/
def count_lines : Nat → List Char → Nat → Nat
  | 0, _, num_points => num_points
  | fuel + 1, unread, num_points =>
    match getline unread with
    | none => num_points
    | some rest => count_lines fuel rest (num_points + 1)

/-- Source function `get_dimensions` on the content `file` of a file that `fopen` could
open: the empty file is refused, the first line is scanned for commas, and the lines after
it are counted. -/
def get_dimensions (file : List Char) : Dimensions :=
  match file with
  | [] => { ret := 0, num_points := 0, num_features := 0 }
  | _ :: _ =>
    let scanned := scan_first_line file 0
    { ret := 1,
      num_points := count_lines (scanned.2.length + 1) scanned.2 0,
      num_features := scanned.1 + 1 }

/-- The iterates named by the specification: `H_0 = H` and `H_{j+1} = update_H(W, H_j)`. -/
def iterates (k num_points : Nat) (norm_matrix H : Mat R) : Nat → Option (Mat R)
  | 0 => some H
  | j + 1 => (iterates k num_points norm_matrix H j).bind (update_H k num_points norm_matrix)

end Embedding

/-!
The same functions with their buffers addressed through a heap, for the claims about which
buffers a call modifies.  The heap lists every matrix allocated so far; a `double **` is the
index of its matrix in that list.  `init_matrix` appends a zeroed matrix and returns its
index; `free_matrix` leaves the empty list in the cell, so that any later access to a freed
matrix is out of bounds.
-/

section HeapEmbedding

variable {R : Type} [LinearOrderedField R]

/-- The heap: every matrix allocated so far, in allocation order. -/
abbrev Heap (R : Type) := List (Mat R)

/-- Read `p[i][j]` for the pointer `p`. -/
def hread (h : Heap R) (p i j : Nat) : Option R :=
  (h.get? p).bind (fun m => mget m i j)

/-- Write `p[i][j] = v` for the pointer `p`. -/
def hwrite (h : Heap R) (p i j : Nat) (v : R) : Option (Heap R) :=
  (h.get? p).bind (fun m => (mset m i j v).map (fun m' => h.set p m'))

/-- Source function `init_matrix` on the heap: the new heap and the pointer returned. -/
def init_matrix_heap (h : Heap R) (rows cols : Nat) : Heap R × Nat :=
  (h ++ [init_matrix rows cols], h.length)

/-- Source function `free_matrix` on the heap. -/
def free_matrix_heap (h : Heap R) (matrix : Nat) : Heap R :=
  h.set matrix []

/-- Source function `matrix_multiply` on the heap: the new heap and the pointer `result`. -/
def matrix_multiply_heap (h : Heap R) (mat1 mat2 rows1 cols1 cols2 : Nat) :
    Option (Heap R × Nat) :=
  let a := init_matrix_heap h rows1 cols2
  (forLoop 0 rows1 (fun i h =>
    forLoop 0 cols2 (fun j h =>
      forLoop 0 cols1 (fun k h =>
        (hread h a.2 i j).bind (fun r =>
        (hread h mat1 i k).bind (fun x =>
        (hread h mat2 k j).bind (fun y =>
          hwrite h a.2 i j (r + x * y))))) h) h) a.1).map (fun h => (h, a.2))

/-- Modelled from the spec: `multiply` on the heap, read as `matrix_multiply` (see
`multiply`). -/
def multiply_heap (h : Heap R) (mat1 mat2 rows1 cols1 cols2 : Nat) : Option (Heap R × Nat) :=
  matrix_multiply_heap h mat1 mat2 rows1 cols1 cols2

/-- Source function `transpose_matrix` on the heap. -/
def transpose_matrix_heap (h : Heap R) (matrix rows cols : Nat) : Option (Heap R × Nat) :=
  let a := init_matrix_heap h cols rows
  (forLoop 0 rows (fun i h =>
    forLoop 0 cols (fun j h =>
      (hread h matrix i j).bind (fun v => hwrite h a.2 j i v)) h) a.1).map (fun h => (h, a.2))

/-- Source function `copy_matrix` on the heap: row `i` of `dest` receives the first `cols`
cells of row `i` of `src`. -/
def copy_matrix_heap (h : Heap R) (dest src rows cols : Nat) : Option (Heap R) :=
  forLoop 0 rows (fun i h =>
    (h.get? dest).bind (fun D =>
    (h.get? src).bind (fun S =>
    (D.get? i).bind (fun drow =>
    (S.get? i).bind (fun srow =>
      if cols ≤ drow.length ∧ cols ≤ srow.length then
        some (h.set dest (D.set i (srow.take cols ++ drow.drop cols)))
      else none))))) h

/-- Source function `update_H` on the heap: `next_H` and the four temporaries are
allocated, `next_H` is filled, the temporaries are freed, `next_H` is returned. -/
def update_H_heap (h : Heap R) (k num_points norm_matrix H : Nat) : Option (Heap R × Nat) :=
  let a := init_matrix_heap h num_points k
  (multiply_heap a.1 norm_matrix H num_points num_points k).bind (fun WH =>
  (transpose_matrix_heap WH.1 H k num_points).bind (fun H_transpose =>
  (multiply_heap H_transpose.1 H H_transpose.2 num_points k num_points).bind (fun HH_transpose =>
  (multiply_heap HH_transpose.1 HH_transpose.2 H num_points num_points k).bind
    (fun HH_transpose_H =>
    (forLoop 0 num_points (fun i h =>
      forLoop 0 k (fun j h =>
        (hread h WH.2 i j).bind (fun wh =>
        (hread h HH_transpose_H.2 i j).bind (fun den =>
        (hread h H i j).bind (fun hh =>
          let ratio := wh / den
          hwrite h a.2 i j (hh * (BETA * ratio + (1 - BETA))))))) h) HH_transpose_H.1).map
      (fun h =>
        (free_matrix_heap (free_matrix_heap (free_matrix_heap (free_matrix_heap h WH.2)
          H_transpose.2) HH_transpose.2) HH_transpose_H.2, a.2))))))

/-- Source function `has_converged` on the heap. -/
def has_converged_heap (h : Heap R) (k num_points H next_H : Nat) : Option Bool :=
  (forLoop 0 num_points (fun i norm =>
    forLoop 0 k (fun j norm =>
      (hread h next_H i j).bind (fun a =>
      (hread h H i j).bind (fun b =>
        let diff := a - b
        some (norm + diff * diff)))) norm) (0 : R)).map
    (fun norm => decide (norm < EPSILON))

/-- The loop of `calculate_symnmf` on the heap; the state is the heap, the pointer `next_H`
and `iter`, and `curr_h` is the caller's pointer `H`. -/
def calculate_symnmf_heap_loop (k num_points norm_matrix curr_h : Nat) :
    Nat → Heap R × Nat × Nat → Option (Heap R × Nat × Nat)
  | 0, s => some s
  | fuel + 1, s =>
    (has_converged_heap s.1 k num_points curr_h s.2.1).bind (fun c =>
      if c then some s
      else
        (copy_matrix_heap s.1 curr_h s.2.1 num_points k).bind (fun h =>
        (update_H_heap h k num_points norm_matrix curr_h).bind (fun temp =>
          calculate_symnmf_heap_loop k num_points norm_matrix curr_h fuel
            (free_matrix_heap temp.1 s.2.1, temp.2, s.2.2 + 1))))

/-- Source function `calculate_symnmf` on the heap: the final heap and the pointer
returned. -/
def calculate_symnmf_heap (h : Heap R) (k num_points norm_matrix H : Nat) :
    Option (Heap R × Nat) :=
  (update_H_heap h k num_points norm_matrix H).bind (fun next_H =>
    (calculate_symnmf_heap_loop k num_points norm_matrix H MAX_ITER
      (next_H.1, next_H.2, 0)).map (fun s => (s.1, s.2.1)))

end HeapEmbedding

end SymNMF

namespace SymNMF

section Auxiliary

variable {R : Type} [LinearOrderedField R]

/-- The `r × c` matrix with cell `(i, j)` equal to `f i j`. -/
def matOf (r c : Nat) (f : Nat → Nat → R) : Mat R :=
  (List.range r).map (fun i => (List.range c).map (fun j => f i j))

/-- Cell `(i, j)` of `m`, and `0` outside `m`. -/
def entry (m : Mat R) (i j : Nat) : R :=
  (mget m i j).getD 0

/-- Shape predicate: `m` has exactly `r` rows, each of exactly `c` cells. -/
def IsMat (m : Mat R) (r c : Nat) : Prop :=
  m.length = r ∧ ∀ row ∈ m, row.length = c

/-- The Gaussian kernel value of rows `a` and `b` of `points`, as `similarity_measure`
accumulates it over `dim` coordinates. -/
def kernel (exp : R → R) (points : Mat R) (dim a b : Nat) : R :=
  exp (-0.5 * ∑ c in Finset.range dim,
    (entry points a c - entry points b c) * (entry points a c - entry points b c))

/-- Cell `(a, b)` of the similarity matrix under construction when the outer loop is at
row `i` and the inner loop at column `j`. -/
def simStage (exp : R → R) (points : Mat R) (dim i j a b : Nat) : R :=
  if (a < b ∧ (a < i ∨ (a = i ∧ b < j))) ∨ (b < a ∧ (b < i ∨ (b = i ∧ a < j))) then
    kernel exp points dim a b
  else 0

/-- Row sum `a` of the similarity matrix of `points`: the degree of point `a`. -/
def degree (exp : R → R) (points : Mat R) (dim n a : Nat) : R :=
  ∑ c in Finset.range n, (if a = c then 0 else kernel exp points dim a c)

/-- Cell `(a, b)` of the product under construction in `matrix_multiply` when the three
loops are at `i`, `j`, `k`. -/
def mulStage (fA fB : Nat → Nat → R) (cols1 i j k a b : Nat) : R :=
  if a < i ∨ (a = i ∧ b < j) then ∑ l in Finset.range cols1, fA a l * fB l b
  else if a = i ∧ b = j then ∑ l in Finset.range k, fA a l * fB l b
  else 0

/-- Cell `(i, j)` of `W * H` for `n × n` matrices given by their cells. -/
def numer (fW fH : Nat → Nat → R) (n i j : Nat) : R :=
  ∑ l in Finset.range n, fW i l * fH l j

/-- Cell `(i, j)` of `(H * Hᵀ) * H` for an `n × n` matrix `H` given by its cells. -/
def denom (fH : Nat → Nat → R) (n i j : Nat) : R :=
  ∑ l in Finset.range n, (∑ m in Finset.range n, fH i m * fH l m) * fH l j

/-- The denominator `HH_transpose_H` exactly as `update_H` computes it: the transpose
request, then the two products. -/
def update_H_denominator (k num_points : Nat) (H : Mat R) : Option (Mat R) :=
  (transpose_matrix H k num_points).bind (fun H_transpose =>
  (multiply H H_transpose num_points k num_points).bind (fun HH_transpose =>
    multiply HH_transpose H num_points num_points k))

end Auxiliary

section Lemmas

variable {R : Type} [LinearOrderedField R]

theorem forRange_eq {σ : Type} (body : Nat → σ → Option σ) (g : Nat → σ) :
    ∀ (cnt i : Nat), (∀ j, i ≤ j → j < i + cnt → body j (g j) = some (g (j + 1))) →
      forRange body cnt i (g i) = some (g (i + cnt))
  | 0, i, _ => rfl
  | cnt + 1, i, h => by
    have h1 := h i (le_refl _) (by omega)
    have h2 := forRange_eq body g cnt (i + 1) (fun j hj1 hj2 => h j (by omega) (by omega))
    simp only [forRange, h1, Option.some_bind, h2]
    congr 2
    omega

theorem forLoop_eq {σ : Type} (body : Nat → σ → Option σ) (g : Nat → σ) (lo hi : Nat)
    (hle : lo ≤ hi) (h : ∀ j, lo ≤ j → j < hi → body j (g j) = some (g (j + 1))) :
    forLoop lo hi body (g lo) = some (g hi) := by
  have := forRange_eq body g (hi - lo) lo (fun j h1 h2 => h j h1 (by omega))
  rw [forLoop, this]
  congr 2
  omega

theorem matOf_length (r c : Nat) (f : Nat → Nat → R) : (matOf r c f).length = r := by
  simp [matOf]

theorem matOf_get? (r c : Nat) (f : Nat → Nat → R) (i : Nat) (hi : i < r) :
    (matOf r c f)[i]? = some ((List.range c).map (fun j => f i j)) := by
  simp [matOf, List.getElem?_map, List.getElem?_range hi]

theorem mget_matOf (r c : Nat) (f : Nat → Nat → R) (i j : Nat) (hi : i < r) (hj : j < c) :
    mget (matOf r c f) i j = some (f i j) := by
  simp only [mget, List.get?_eq_getElem?, matOf_get? r c f i hi, Option.some_bind]
  simp [List.getElem?_map, List.getElem?_range hj]

theorem entry_matOf (r c : Nat) (f : Nat → Nat → R) (i j : Nat) (hi : i < r) (hj : j < c) :
    entry (matOf r c f) i j = f i j := by
  simp [entry, mget_matOf r c f i j hi hj]

theorem matOf_congr (r c : Nat) (f g : Nat → Nat → R)
    (h : ∀ i j, i < r → j < c → f i j = g i j) : matOf r c f = matOf r c g := by
  unfold matOf
  apply List.map_congr_left
  intro i hi
  apply List.map_congr_left
  intro j hj
  exact h i j (List.mem_range.mp hi) (List.mem_range.mp hj)

theorem isMat_matOf (r c : Nat) (f : Nat → Nat → R) : IsMat (matOf r c f) r c := by
  refine ⟨matOf_length r c f, ?_⟩
  intro row hrow
  simp only [matOf, List.mem_map, List.mem_range] at hrow
  obtain ⟨i, _, rfl⟩ := hrow
  simp

theorem eq_matOf_of_isMat (m : Mat R) (r c : Nat) (h : IsMat m r c) :
    m = matOf r c (entry m) := by
  obtain ⟨hlen, hrows⟩ := h
  apply List.ext_getElem
  · simp [matOf, hlen]
  · intro i h1 h2
    have hi : i < r := by omega
    have hrow : (m[i]).length = c := hrows _ (List.getElem_mem h1)
    simp only [matOf, List.getElem_map, List.getElem_range]
    apply List.ext_getElem
    · simp [hrow]
    · intro j h3 h4
      simp [entry, mget, List.getElem?_eq_getElem h1, List.getElem?_eq_getElem h3]

theorem mset_matOf (r c : Nat) (f : Nat → Nat → R) (i j : Nat) (v : R) (hi : i < r)
    (hj : j < c) :
    mset (matOf r c f) i j v =
      some (matOf r c (fun a b => if a = i ∧ b = j then v else f a b)) := by
  simp only [mset, List.get?_eq_getElem?, matOf_get? r c f i hi, Option.some_bind,
    List.length_map, List.length_range,
    hj, if_true, Option.some.injEq]
  apply List.ext_getElem
  · simp [matOf]
  · intro a h1 h2
    have ha : a < r := by simpa [matOf] using h2
    by_cases hai : a = i
    · subst hai
      simp only [List.getElem_set_self, matOf, List.getElem_map, List.getElem_range]
      apply List.ext_getElem
      · simp
      · intro b h3 h4
        by_cases hbj : b = j
        · subst hbj; simp
        · simp [List.getElem_set_ne (Ne.symm hbj), hbj]
    · simp only [ne_eq, hai, not_false_eq_true, List.getElem_set_ne (Ne.symm hai), matOf,
        List.getElem_map, List.getElem_range, false_and, if_false]

theorem init_matrix_eq (r c : Nat) : (init_matrix r c : Mat R) = matOf r c (fun _ _ => 0) := by
  unfold init_matrix matOf
  apply List.ext_getElem
  · simp
  · intro i h1 h2
    simp only [List.getElem_replicate, List.getElem_map]
    apply List.ext_getElem
    · simp
    · intro j h3 h4
      simp

theorem entry_of_get? (m : Mat R) (i j : Nat) (row : List R) (h : m[i]? = some row) :
    entry m i j = row.getD j 0 := by
  simp [entry, mget, h, List.getD_eq_getElem?_getD]

theorem isMat_get? (m : Mat R) (r c i : Nat) (h : IsMat m r c) (hi : i < r) :
    ∃ row, m[i]? = some row ∧ row.length = c := by
  have h1 : i < m.length := by rw [h.1]; exact hi
  exact ⟨m[i], List.getElem?_eq_getElem h1, h.2 _ (List.getElem_mem h1)⟩

theorem get?_eq_getD (v : List R) (i : Nat) (h : i < v.length) : v[i]? = some (v.getD i 0) := by
  simp [List.getD_eq_getElem?_getD, List.getElem?_eq_getElem h]

theorem kernel_comm (exp : R → R) (points : Mat R) (dim a b : Nat) :
    kernel exp points dim a b = kernel exp points dim b a := by
  unfold kernel
  congr 2
  apply Finset.sum_congr rfl
  intro c _
  ring

theorem similarity_measure_eq (exp : R → R) (vec1 vec2 : List R) (size : Nat)
    (h1 : size ≤ vec1.length) (h2 : size ≤ vec2.length) :
    similarity_measure exp vec1 vec2 size =
      some (exp (-0.5 * ∑ c in Finset.range size,
        (vec1.getD c 0 - vec2.getD c 0) * (vec1.getD c 0 - vec2.getD c 0))) := by
  unfold similarity_measure
  have := forLoop_eq (fun i sum =>
      (vec1.get? i).bind (fun a =>
      (vec2.get? i).bind (fun b =>
        let diff := a - b
        some (sum + diff * diff))))
    (fun n => ∑ c in Finset.range n,
        (vec1.getD c 0 - vec2.getD c 0) * (vec1.getD c 0 - vec2.getD c 0)) 0 size
    (Nat.zero_le _) (by
      intro j _ hj
      simp only [List.get?_eq_getElem?, get?_eq_getD vec1 j (by omega),
        get?_eq_getD vec2 j (by omega), Option.some_bind, Finset.sum_range_succ])
  simp only [Finset.range_zero, Finset.sum_empty] at this
  rw [this]
  rfl

theorem vector_sum_eq (vec : List R) (size : Nat) (h : size ≤ vec.length) :
    vector_sum vec size = some (∑ c in Finset.range size, vec.getD c 0) := by
  unfold vector_sum
  have := forLoop_eq (fun i sum => (vec.get? i).map (fun x => sum + x))
    (fun n => ∑ c in Finset.range n, vec.getD c 0) 0 size (Nat.zero_le _) (by
      intro j _ hj
      simp only [List.get?_eq_getElem?, get?_eq_getD vec j (by omega), Option.map_some',
        Finset.sum_range_succ])
  simp only [Finset.range_zero, Finset.sum_empty] at this
  exact this

theorem create_similarity_matrix_inner (exp : R → R) (n d : Nat) (points : Mat R)
    (hp : IsMat points n d) (i : Nat) (hi : i < n) :
    forLoop (i + 1) n (fun j sim_matrix =>
      (points.get? i).bind (fun pi =>
      (points.get? j).bind (fun pj =>
      (similarity_measure exp pi pj d).bind (fun v =>
      (mset sim_matrix j i v).bind (fun sim_matrix =>
        mset sim_matrix i j v))))) (matOf n n (simStage exp points d i 0)) =
    some (matOf n n (simStage exp points d (i + 1) 0)) := by
  have h0 : matOf n n (simStage exp points d i 0) =
      matOf n n (simStage exp points d i (i + 1)) := by
    apply matOf_congr
    intro a b _ _
    unfold simStage
    have : ((a < b ∧ (a < i ∨ (a = i ∧ b < 0))) ∨ (b < a ∧ (b < i ∨ (b = i ∧ a < 0)))) ↔
        ((a < b ∧ (a < i ∨ (a = i ∧ b < i + 1))) ∨
          (b < a ∧ (b < i ∨ (b = i ∧ a < i + 1)))) := by omega
    simp only [this]
  have h1 : matOf n n (simStage exp points d i n) =
      matOf n n (simStage exp points d (i + 1) 0) := by
    apply matOf_congr
    intro a b ha hb
    unfold simStage
    have : ((a < b ∧ (a < i ∨ (a = i ∧ b < n))) ∨ (b < a ∧ (b < i ∨ (b = i ∧ a < n)))) ↔
        ((a < b ∧ (a < i + 1 ∨ (a = i + 1 ∧ b < 0))) ∨
          (b < a ∧ (b < i + 1 ∨ (b = i + 1 ∧ a < 0)))) := by omega
    simp only [this]
  rw [h0, ← h1]
  apply forLoop_eq _ (fun j => matOf n n (simStage exp points d i j)) (i + 1) n (by omega)
  intro j hj1 hj2
  obtain ⟨pi, hpi, hpil⟩ := isMat_get? points n d i hp hi
  obtain ⟨pj, hpj, hpjl⟩ := isMat_get? points n d j hp hj2
  simp only [List.get?_eq_getElem?, hpi, hpj, Option.some_bind,
    similarity_measure_eq exp pi pj d (by omega) (by omega),
    mset_matOf n n _ j i _ hj2 hi, mset_matOf n n _ i j _ hi hj2, Option.some.injEq]
  apply matOf_congr
  intro a b ha hb
  have hk : exp (-0.5 * ∑ c in Finset.range d,
      (pi.getD c 0 - pj.getD c 0) * (pi.getD c 0 - pj.getD c 0)) =
      kernel exp points d i j := by
    unfold kernel
    simp only [entry_of_get? points i _ pi hpi, entry_of_get? points j _ pj hpj]
  rw [hk]
  unfold simStage
  by_cases h1 : a = i ∧ b = j
  · obtain ⟨rfl, rfl⟩ := h1
    rw [if_pos ⟨rfl, rfl⟩, if_pos (by omega)]
  · rw [if_neg h1]
    by_cases h2 : a = j ∧ b = i
    · obtain ⟨rfl, rfl⟩ := h2
      rw [if_pos ⟨rfl, rfl⟩, if_pos (by omega)]
      exact kernel_comm exp points d b a
    · rw [if_neg h2]
      have : ((a < b ∧ (a < i ∨ (a = i ∧ b < j))) ∨ (b < a ∧ (b < i ∨ (b = i ∧ a < j)))) ↔
          ((a < b ∧ (a < i ∨ (a = i ∧ b < j + 1))) ∨
            (b < a ∧ (b < i ∨ (b = i ∧ a < j + 1)))) := by omega
      simp only [this]

theorem create_similarity_matrix_eq (exp : R → R) (n d : Nat) (points : Mat R)
    (hp : IsMat points n d) :
    create_similarity_matrix exp n d points =
      some (matOf n n (fun a b => if a = b then 0 else kernel exp points d a b)) := by
  unfold create_similarity_matrix
  have h0 : (init_matrix n n : Mat R) = matOf n n (simStage exp points d 0 0) := by
    rw [init_matrix_eq]
    apply matOf_congr
    intro a b _ _
    unfold simStage
    rw [if_neg (by omega)]
  have h1 : matOf n n (simStage exp points d n 0) =
      matOf n n (fun a b => if a = b then 0 else kernel exp points d a b) := by
    apply matOf_congr
    intro a b ha hb
    unfold simStage
    by_cases hab : a = b
    · rw [if_pos hab, if_neg (by omega)]
    · rw [if_neg hab, if_pos (by omega)]
  rw [h0, ← h1]
  apply forLoop_eq _ (fun i => matOf n n (simStage exp points d i 0)) 0 n (Nat.zero_le _)
  intro i _ hi
  exact create_similarity_matrix_inner exp n d points hp i hi

theorem create_diagonal_matrix_eq (exp : R → R) (n d : Nat) (points : Mat R)
    (hp : IsMat points n d) :
    create_diagonal_matrix exp n d points =
      some (matOf n n (fun a b => if a = b then degree exp points d n a else 0)) := by
  unfold create_diagonal_matrix
  rw [create_similarity_matrix_eq exp n d points hp, Option.some_bind]
  have h0 : (init_matrix n n : Mat R) =
      matOf n n (fun a b => if a = b ∧ a < 0 then degree exp points d n a else 0) := by
    rw [init_matrix_eq]
    apply matOf_congr
    intro a b _ _
    rw [if_neg (by omega)]
  have h1 : matOf n n (fun a b => if a = b ∧ a < n then degree exp points d n a else 0) =
      matOf n n (fun a b => if a = b then degree exp points d n a else 0) := by
    apply matOf_congr
    intro a b ha _
    by_cases hab : a = b
    · rw [if_pos ⟨hab, ha⟩, if_pos hab]
    · rw [if_neg (fun h => hab h.1), if_neg hab]
  rw [h0, ← h1]
  apply forLoop_eq _
    (fun i => matOf n n (fun a b => if a = b ∧ a < i then degree exp points d n a else 0))
    0 n (Nat.zero_le _)
  intro i _ hi
  have hs : vector_sum ((List.range n).map
      (fun j => if i = j then (0 : R) else kernel exp points d i j)) n =
      some (degree exp points d n i) := by
    rw [vector_sum_eq _ n (by simp)]
    unfold degree
    congr 1
    apply Finset.sum_congr rfl
    intro c hc
    have hc2 : c < n := Finset.mem_range.mp hc
    simp [List.getD_eq_getElem?_getD, List.getElem?_map, List.getElem?_range hc2]
  simp only [List.get?_eq_getElem?, matOf_get? n n _ i hi, Option.some_bind, hs,
    mset_matOf n n _ i i _ hi hi, Option.some.injEq]
  apply matOf_congr
  intro a b _ _
  by_cases h1 : a = i ∧ b = i
  · obtain ⟨rfl, rfl⟩ := h1
    rw [if_pos ⟨rfl, rfl⟩, if_pos ⟨rfl, by omega⟩]
  · rw [if_neg h1]
    by_cases h2 : a = b ∧ a < i
    · rw [if_pos h2, if_pos ⟨h2.1, by omega⟩]
    · rw [if_neg h2, if_neg (by omega)]

theorem matrix_multiply_inner (fA fB : Nat → Nat → R) (r c r2 c2 rows1 cols1 cols2 : Nat)
    (h1 : rows1 ≤ r) (h2 : cols1 ≤ c) (h3 : cols1 ≤ r2) (h4 : cols2 ≤ c2)
    (i j : Nat) (hi : i < rows1) (hj : j < cols2) :
    forLoop 0 cols1 (fun k result =>
        (mget result i j).bind (fun x =>
        (mget (matOf r c fA) i k).bind (fun a =>
        (mget (matOf r2 c2 fB) k j).bind (fun b =>
          mset result i j (x + a * b)))))
      (matOf rows1 cols2 (mulStage fA fB cols1 i j 0)) =
    some (matOf rows1 cols2 (mulStage fA fB cols1 i (j + 1) 0)) := by
  have he : matOf rows1 cols2 (mulStage fA fB cols1 i j cols1) =
      matOf rows1 cols2 (mulStage fA fB cols1 i (j + 1) 0) := by
    apply matOf_congr
    intro a b _ _
    unfold mulStage
    by_cases c1 : a < i ∨ (a = i ∧ b < j)
    · rw [if_pos c1, if_pos (by omega)]
    · rw [if_neg c1]
      by_cases c2 : a = i ∧ b = j
      · rw [if_pos c2, if_pos (by omega)]
      · rw [if_neg c2, if_neg (by omega)]
        by_cases c3 : a = i ∧ b = j + 1
        · rw [if_pos c3]; simp
        · rw [if_neg c3]
  rw [← he]
  apply forLoop_eq _ (fun k => matOf rows1 cols2 (mulStage fA fB cols1 i j k)) 0 cols1
    (Nat.zero_le _)
  intro k _ hk
  simp only [mget_matOf rows1 cols2 _ i j hi hj, mget_matOf r c fA i k (by omega) (by omega),
    mget_matOf r2 c2 fB k j (by omega) (by omega), Option.some_bind,
    mset_matOf rows1 cols2 _ i j _ hi hj, Option.some.injEq]
  apply matOf_congr
  intro a b _ _
  unfold mulStage
  by_cases c2 : a = i ∧ b = j
  · obtain ⟨rfl, rfl⟩ := c2
    simp [Finset.sum_range_succ]
  · simp only [c2, if_false]

theorem matrix_multiply_middle (fA fB : Nat → Nat → R) (r c r2 c2 rows1 cols1 cols2 : Nat)
    (h1 : rows1 ≤ r) (h2 : cols1 ≤ c) (h3 : cols1 ≤ r2) (h4 : cols2 ≤ c2)
    (i : Nat) (hi : i < rows1) :
    forLoop 0 cols2 (fun j result =>
      forLoop 0 cols1 (fun k result =>
        (mget result i j).bind (fun x =>
        (mget (matOf r c fA) i k).bind (fun a =>
        (mget (matOf r2 c2 fB) k j).bind (fun b =>
          mset result i j (x + a * b))))) result)
      (matOf rows1 cols2 (mulStage fA fB cols1 i 0 0)) =
    some (matOf rows1 cols2 (mulStage fA fB cols1 (i + 1) 0 0)) := by
  have he : matOf rows1 cols2 (mulStage fA fB cols1 i cols2 0) =
      matOf rows1 cols2 (mulStage fA fB cols1 (i + 1) 0 0) := by
    apply matOf_congr
    intro a b _ hb
    unfold mulStage
    by_cases c1 : a < i ∨ (a = i ∧ b < cols2)
    · rw [if_pos c1, if_pos (by omega)]
    · rw [if_neg c1, if_neg (by omega), if_neg (by omega)]
      by_cases c2 : a = i + 1 ∧ b = 0
      · rw [if_pos c2]; simp
      · rw [if_neg c2]
  rw [← he]
  apply forLoop_eq _ (fun j => matOf rows1 cols2 (mulStage fA fB cols1 i j 0)) 0 cols2
    (Nat.zero_le _)
  intro j _ hj
  exact matrix_multiply_inner fA fB r c r2 c2 rows1 cols1 cols2 h1 h2 h3 h4 i j hi hj

theorem matrix_multiply_matOf (fA fB : Nat → Nat → R) (r c r2 c2 rows1 cols1 cols2 : Nat)
    (h1 : rows1 ≤ r) (h2 : cols1 ≤ c) (h3 : cols1 ≤ r2) (h4 : cols2 ≤ c2) :
    matrix_multiply (matOf r c fA) (matOf r2 c2 fB) rows1 cols1 cols2 =
      some (matOf rows1 cols2 (fun i j => ∑ l in Finset.range cols1, fA i l * fB l j)) := by
  unfold matrix_multiply
  have h0 : (init_matrix rows1 cols2 : Mat R) =
      matOf rows1 cols2 (mulStage fA fB cols1 0 0 0) := by
    rw [init_matrix_eq]
    apply matOf_congr
    intro a b _ _
    unfold mulStage
    rw [if_neg (by omega)]
    by_cases c2 : a = 0 ∧ b = 0
    · rw [if_pos c2]; simp
    · rw [if_neg c2]
  have he : matOf rows1 cols2 (mulStage fA fB cols1 rows1 0 0) =
      matOf rows1 cols2 (fun i j => ∑ l in Finset.range cols1, fA i l * fB l j) := by
    apply matOf_congr
    intro a b ha _
    unfold mulStage
    rw [if_pos (Or.inl ha)]
  rw [h0, ← he]
  apply forLoop_eq _ (fun i => matOf rows1 cols2 (mulStage fA fB cols1 i 0 0)) 0 rows1
    (Nat.zero_le _)
  intro i _ hi
  exact matrix_multiply_middle fA fB r c r2 c2 rows1 cols1 cols2 h1 h2 h3 h4 i hi

theorem transpose_matrix_matOf (f : Nat → Nat → R) (r c rows cols : Nat)
    (h1 : rows ≤ r) (h2 : cols ≤ c) :
    transpose_matrix (matOf r c f) rows cols = some (matOf cols rows (fun a b => f b a)) := by
  unfold transpose_matrix
  have h0 : (init_matrix cols rows : Mat R) =
      matOf cols rows (fun a b => if b < 0 ∨ (b = 0 ∧ a < 0) then f b a else 0) := by
    rw [init_matrix_eq]
    apply matOf_congr
    intro a b _ _
    rw [if_neg (by omega)]
  have he : matOf cols rows (fun a b => if b < rows ∨ (b = rows ∧ a < 0) then f b a else 0) =
      matOf cols rows (fun a b => f b a) := by
    apply matOf_congr
    intro a b _ hb
    rw [if_pos (Or.inl hb)]
  rw [h0, ← he]
  apply forLoop_eq _
    (fun i => matOf cols rows (fun a b => if b < i ∨ (b = i ∧ a < 0) then f b a else 0))
    0 rows (Nat.zero_le _)
  intro i _ hi
  have hi1 : matOf cols rows (fun a b => if b < i ∨ (b = i ∧ a < cols) then f b a else 0) =
      matOf cols rows (fun a b => if b < i + 1 ∨ (b = i + 1 ∧ a < 0) then f b a else 0) := by
    apply matOf_congr
    intro a b ha _
    by_cases c1 : b < i ∨ (b = i ∧ a < cols)
    · rw [if_pos c1, if_pos (by omega)]
    · rw [if_neg c1, if_neg (by omega)]
  show forLoop 0 cols _ _ = some (matOf cols rows _)
  rw [← hi1]
  apply forLoop_eq _
    (fun j => matOf cols rows (fun a b => if b < i ∨ (b = i ∧ a < j) then f b a else 0))
    0 cols (Nat.zero_le _)
  intro j _ hj
  simp only [mget_matOf r c f i j (by omega) (by omega), Option.some_bind,
    mset_matOf cols rows _ j i _ hj hi, Option.some.injEq]
  apply matOf_congr
  intro a b _ _
  by_cases c1 : a = j ∧ b = i
  · obtain ⟨rfl, rfl⟩ := c1
    rw [if_pos ⟨rfl, rfl⟩, if_pos (by omega)]
  · rw [if_neg c1]
    by_cases c2 : b < i ∨ (b = i ∧ a < j)
    · rw [if_pos c2, if_pos (by omega)]
    · rw [if_neg c2, if_neg (by omega)]

/-- The loop nest that `update_H` and similar fillers run: cell `(i, j)` of a zeroed
`r × c` matrix receives `val i j`, row by row. -/
theorem fill_loops (r c : Nat) (val : Nat → Nat → R) (body : Nat → Nat → Mat R → Option (Mat R))
    (hbody : ∀ i j (g : Nat → Nat → R), i < r → j < c →
      body i j (matOf r c g) = some (matOf r c (fun a b => if a = i ∧ b = j then val i j else g a b))) :
    forLoop 0 r (fun i m => forLoop 0 c (fun j m => body i j m) m) (init_matrix r c) =
      some (matOf r c val) := by
  have h0 : (init_matrix r c : Mat R) =
      matOf r c (fun a b => if a < 0 ∨ (a = 0 ∧ b < 0) then val a b else 0) := by
    rw [init_matrix_eq]
    apply matOf_congr
    intro a b _ _
    rw [if_neg (by omega)]
  have he : matOf r c (fun a b => if a < r ∨ (a = r ∧ b < 0) then val a b else 0) =
      matOf r c val := by
    apply matOf_congr
    intro a b ha _
    rw [if_pos (Or.inl ha)]
  rw [h0, ← he]
  apply forLoop_eq _
    (fun i => matOf r c (fun a b => if a < i ∨ (a = i ∧ b < 0) then val a b else 0))
    0 r (Nat.zero_le _)
  intro i _ hi
  have hi1 : matOf r c (fun a b => if a < i ∨ (a = i ∧ b < c) then val a b else 0) =
      matOf r c (fun a b => if a < i + 1 ∨ (a = i + 1 ∧ b < 0) then val a b else 0) := by
    apply matOf_congr
    intro a b _ hb
    by_cases c1 : a < i ∨ (a = i ∧ b < c)
    · rw [if_pos c1, if_pos (by omega)]
    · rw [if_neg c1, if_neg (by omega)]
  show forLoop 0 c _ _ = some (matOf r c _)
  rw [← hi1]
  apply forLoop_eq _
    (fun j => matOf r c (fun a b => if a < i ∨ (a = i ∧ b < j) then val a b else 0))
    0 c (Nat.zero_le _)
  intro j _ hj
  show body i j _ = _
  rw [hbody i j _ hi hj]
  congr 1
  apply matOf_congr
  intro a b _ _
  by_cases c1 : a = i ∧ b = j
  · obtain ⟨rfl, rfl⟩ := c1
    rw [if_pos ⟨rfl, rfl⟩, if_pos (by omega)]
  · rw [if_neg c1]
    by_cases c2 : a < i ∨ (a = i ∧ b < j)
    · rw [if_pos c2, if_pos (by omega)]
    · rw [if_neg c2, if_neg (by omega)]

theorem update_H_square (fW fH : Nat → Nat → R) (n : Nat) :
    update_H n n (matOf n n fW) (matOf n n fH) =
      some (matOf n n (fun i j =>
        fH i j * (BETA * (numer fW fH n i j / denom fH n i j) + (1 - BETA)))) := by
  unfold update_H multiply
  simp only [matrix_multiply_matOf fW fH n n n n n n n le_rfl le_rfl le_rfl le_rfl,
    transpose_matrix_matOf fH n n n n le_rfl le_rfl, Option.some_bind,
    matrix_multiply_matOf fH (fun a b => fH b a) n n n n n n n le_rfl le_rfl le_rfl le_rfl,
    matrix_multiply_matOf (fun i j => ∑ l in Finset.range n, fH i l * fH j l) fH
      n n n n n n n le_rfl le_rfl le_rfl le_rfl]
  apply fill_loops n n _ (fun i j next_H =>
    (mget (matOf n n fun i j => ∑ l in Finset.range n, fW i l * fH l j) i j).bind (fun wh =>
    (mget (matOf n n fun i j => ∑ l in Finset.range n,
        (∑ l_1 in Finset.range n, fH i l_1 * fH l l_1) * fH l j) i j).bind (fun den =>
    (mget (matOf n n fH) i j).bind (fun h =>
      mset next_H i j (h * (BETA * (wh / den) + (1 - BETA)))))))
  intro i j g hi hj
  simp only [mget_matOf n n _ i j hi hj, Option.some_bind, mset_matOf n n g i j _ hi hj]
  rfl

theorem has_converged_matOf (fH fN : Nat → Nat → R) (r c r2 c2 k n : Nat)
    (h1 : n ≤ r) (h2 : k ≤ c) (h3 : n ≤ r2) (h4 : k ≤ c2) :
    has_converged k n (matOf r c fH) (matOf r2 c2 fN) =
      some (decide ((∑ i in Finset.range n, ∑ j in Finset.range k,
        (fN i j - fH i j) * (fN i j - fH i j)) < EPSILON)) := by
  unfold has_converged
  have := forLoop_eq (fun i norm =>
    forLoop 0 k (fun j norm =>
      (mget (matOf r2 c2 fN) i j).bind (fun a =>
      (mget (matOf r c fH) i j).bind (fun b =>
        let diff := a - b
        some (norm + diff * diff))) ) norm)
    (fun i => ∑ a in Finset.range i, ∑ j in Finset.range k,
        (fN a j - fH a j) * (fN a j - fH a j)) 0 n (Nat.zero_le _) (by
      intro i _ hi
      have hin := forLoop_eq (fun j norm =>
          (mget (matOf r2 c2 fN) i j).bind (fun a =>
          (mget (matOf r c fH) i j).bind (fun b =>
            let diff := a - b
            some (norm + diff * diff))))
        (fun j => (∑ a in Finset.range i, ∑ j in Finset.range k,
            (fN a j - fH a j) * (fN a j - fH a j)) +
          ∑ b in Finset.range j, (fN i b - fH i b) * (fN i b - fH i b)) 0 k (Nat.zero_le _) (by
          intro j _ hj
          simp only [mget_matOf r2 c2 fN i j (by omega) (by omega),
            mget_matOf r c fH i j (by omega) (by omega), Option.some_bind,
            Finset.sum_range_succ, add_assoc])
      simp only [Finset.range_zero, Finset.sum_empty, add_zero] at hin
      simp only [hin, Finset.sum_range_succ])
  simp only [Finset.range_zero, Finset.sum_empty] at this
  rw [this]
  rfl

theorem matOf_set_row (r c : Nat) (f : Nat → Nat → R) (i : Nat) (g : Nat → R) :
    (matOf r c f).set i ((List.range c).map g) =
      matOf r c (fun a b => if a = i then g b else f a b) := by
  apply List.ext_getElem
  · simp [matOf]
  · intro a h1 h2
    by_cases hai : a = i
    · subst hai
      simp [matOf]
    · simp [matOf, List.getElem_set_ne (Ne.symm hai), hai]

theorem copy_matrix_matOf (fd fs : Nat → Nat → R) (n k : Nat) :
    copy_matrix (matOf n k fd) (matOf n k fs) n k = some (matOf n k fs) := by
  unfold copy_matrix
  have h0 : matOf n k fd = matOf n k (fun a b => if a < 0 then fs a b else fd a b) := by
    apply matOf_congr
    intro a b _ _
    rw [if_neg (by omega)]
  have he : matOf n k (fun a b => if a < n then fs a b else fd a b) = matOf n k fs := by
    apply matOf_congr
    intro a b ha _
    rw [if_pos ha]
  rw [h0]
  conv_rhs => rw [← he]
  apply forLoop_eq _ (fun i => matOf n k (fun a b => if a < i then fs a b else fd a b))
    0 n (Nat.zero_le _)
  intro i _ hi
  simp only [List.get?_eq_getElem?, matOf_get? n k _ i hi, Option.some_bind,
    List.length_map, List.length_range, le_refl, and_self, if_true, Option.some.injEq]
  rw [List.take_of_length_le (by simp), List.drop_of_length_le (by simp), List.append_nil,
    matOf_set_row]
  apply matOf_congr
  intro a b _ _
  by_cases c1 : a = i
  · subst c1
    rw [if_pos rfl, if_pos (by omega)]
  · rw [if_neg c1]
    by_cases c2 : a < i
    · rw [if_pos c2, if_pos (by omega)]
    · rw [if_neg c2, if_neg (by omega)]

theorem sum_diag_mul (n i : Nat) (hi : i < n) (x : Nat → R) (f : Nat → R) :
    (∑ l in Finset.range n, (if i = l then x i else 0) * f l) = x i * f i := by
  rw [Finset.sum_eq_single i]
  · rw [if_pos rfl]
  · intro b _ hb
    rw [if_neg (fun h => hb h.symm), zero_mul]
  · intro h
    exact absurd (Finset.mem_range.mpr hi) h

theorem sum_mul_diag (n j : Nat) (hj : j < n) (x : Nat → R) (f : Nat → R) :
    (∑ l in Finset.range n, f l * (if l = j then x l else 0)) = f j * x j := by
  rw [Finset.sum_eq_single j]
  · rw [if_pos rfl]
  · intro b _ hb
    rw [if_neg hb, mul_zero]
  · intro h
    exact absurd (Finset.mem_range.mpr hj) h

theorem normalize_similarity_matrix_eq (exp sqrt : R → R) (n d : Nat) (points : Mat R)
    (hp : IsMat points n d) :
    normalize_similarity_matrix exp sqrt n d points =
      some (matOf n n (fun i j =>
        (1.0 / sqrt (degree exp points d n i)) *
          (if i = j then 0 else kernel exp points d i j) *
          (1.0 / sqrt (degree exp points d n j)))) := by
  unfold normalize_similarity_matrix
  rw [create_similarity_matrix_eq exp n d points hp,
    create_diagonal_matrix_eq exp n d points hp]
  simp only [Option.some_bind]
  have hD : forLoop 0 n (fun i D =>
      (mget D i i).bind (fun x => mset D i i (1.0 / sqrt x)))
      (matOf n n (fun a b => if a = b then degree exp points d n a else 0)) =
      some (matOf n n (fun a b =>
        if a = b then 1.0 / sqrt (degree exp points d n a) else 0)) := by
    have h0 : matOf n n (fun a b => if a = b then degree exp points d n a else 0) =
        matOf n n (fun a b => if a = b then
          (if a < 0 then 1.0 / sqrt (degree exp points d n a) else degree exp points d n a)
          else 0) := by
      apply matOf_congr
      intro a b _ _
      rw [if_neg (show ¬ a < 0 by omega)]
    have he : matOf n n (fun a b => if a = b then
          (if a < n then 1.0 / sqrt (degree exp points d n a) else degree exp points d n a)
          else 0) =
        matOf n n (fun a b => if a = b then 1.0 / sqrt (degree exp points d n a) else 0) := by
      apply matOf_congr
      intro a b ha _
      rw [if_pos ha]
    rw [h0, ← he]
    apply forLoop_eq _ (fun i => matOf n n (fun a b => if a = b then
          (if a < i then 1.0 / sqrt (degree exp points d n a) else degree exp points d n a)
          else 0)) 0 n (Nat.zero_le _)
    intro i _ hi
    simp only [mget_matOf n n _ i i hi hi, Option.some_bind, mset_matOf n n _ i i _ hi hi,
      if_true, lt_irrefl, if_false, Option.some.injEq]
    apply matOf_congr
    intro a b _ _
    by_cases c1 : a = i ∧ b = i
    · obtain ⟨rfl, rfl⟩ := c1
      simp
    · rw [if_neg c1]
      by_cases c2 : a = b
      · subst c2
        have hne : a ≠ i := fun h => c1 ⟨h, h⟩
        rw [if_pos rfl, if_pos rfl]
        by_cases c3 : a < i
        · rw [if_pos c3, if_pos (by omega)]
        · rw [if_neg c3, if_neg (by omega)]
      · rw [if_neg c2, if_neg c2]
  rw [hD]
  simp only [Option.some_bind]
  rw [matrix_multiply_matOf _ _ n n n n n n n le_rfl le_rfl le_rfl le_rfl]
  simp only [Option.some_bind]
  rw [matrix_multiply_matOf _ _ n n n n n n n le_rfl le_rfl le_rfl le_rfl]
  simp only [Option.some_bind, Option.some.injEq]
  apply matOf_congr
  intro i j hi hj
  have h1 : ∀ l, (∑ l_1 in Finset.range n,
      (if i = l_1 then 1.0 / sqrt (degree exp points d n i) else 0) *
        (if l_1 = l then 0 else kernel exp points d l_1 l)) =
      (1.0 / sqrt (degree exp points d n i)) * (if i = l then 0 else kernel exp points d i l) :=
    fun l => sum_diag_mul n i hi (fun a => 1.0 / sqrt (degree exp points d n a))
      (fun l_1 => if l_1 = l then 0 else kernel exp points d l_1 l)
  simp only [h1]
  exact sum_mul_diag n j hj (fun a => 1.0 / sqrt (degree exp points d n a))
    (fun l => (1.0 / sqrt (degree exp points d n i)) *
      (if i = l then 0 else kernel exp points d i l))

theorem mset_isMat (m m' : Mat R) (r c i j : Nat) (v : R) (hm : IsMat m r c)
    (h : mset m i j v = some m') : IsMat m' r c := by
  unfold mset at h
  rw [List.get?_eq_getElem?] at h
  cases hrow : m[i]? with
  | none => rw [hrow] at h; simp at h
  | some row =>
    rw [hrow, Option.some_bind] at h
    by_cases hj : j < row.length
    · rw [if_pos hj] at h
      injection h with h
      subst h
      refine ⟨by rw [List.length_set]; exact hm.1, ?_⟩
      intro x hx
      rcases List.mem_or_eq_of_mem_set hx with hx | hx
      · exact hm.2 x hx
      · rw [hx, List.length_set]
        exact hm.2 row (List.getElem?_mem hrow)
    · rw [if_neg hj] at h
      simp at h

theorem forRange_preserves {σ : Type} (body : Nat → σ → Option σ) (P : σ → Prop)
    (hbody : ∀ i s s', P s → body i s = some s' → P s') :
    ∀ (cnt i : Nat) (s s' : σ), P s → forRange body cnt i s = some s' → P s'
  | 0, _, s, s', hs, h => by
    simp only [forRange, Option.some.injEq] at h
    exact h ▸ hs
  | cnt + 1, i, s, s', hs, h => by
    simp only [forRange] at h
    cases hb : body i s with
    | none => rw [hb] at h; simp at h
    | some t =>
      rw [hb, Option.some_bind] at h
      exact forRange_preserves body P hbody cnt (i + 1) t s' (hbody i s t hs hb) h

theorem forLoop_preserves {σ : Type} (body : Nat → σ → Option σ) (P : σ → Prop)
    (hbody : ∀ i s s', P s → body i s = some s' → P s') (lo hi : Nat) (s s' : σ)
    (hs : P s) (h : forLoop lo hi body s = some s') : P s' :=
  forRange_preserves body P hbody (hi - lo) lo s s' hs h

theorem isMat_init_matrix (r c : Nat) : IsMat (init_matrix r c : Mat R) r c := by
  rw [init_matrix_eq]
  exact isMat_matOf r c _

theorem update_H_isMat (k n : Nat) (W H M : Mat R) (h : update_H k n W H = some M) :
    IsMat M n k := by
  unfold update_H at h
  simp only [Option.bind_eq_some] at h
  obtain ⟨WH, _, Ht, _, HHt, _, HHtH, _, h⟩ := h
  refine forLoop_preserves _ (fun m => IsMat m n k) ?_ 0 n _ M (isMat_init_matrix n k) h
  intro i s s' hs hi
  refine forLoop_preserves _ (fun m => IsMat m n k) ?_ 0 k _ s' hs hi
  intro j t t' ht hj
  simp only [Option.bind_eq_some] at hj
  obtain ⟨wh, _, den, _, hh, _, hj⟩ := hj
  exact mset_isMat t t' n k i j _ ht hj

theorem has_converged_isMat (k n : Nat) (A B : Mat R) (hA : IsMat A n k) (hB : IsMat B n k) :
    has_converged k n A B =
      some (decide ((∑ i in Finset.range n, ∑ j in Finset.range k,
        (entry B i j - entry A i j) * (entry B i j - entry A i j)) < EPSILON)) := by
  conv_lhs => rw [eq_matOf_of_isMat A n k hA, eq_matOf_of_isMat B n k hB]
  exact has_converged_matOf (entry A) (entry B) n k n k k n le_rfl le_rfl le_rfl le_rfl

theorem copy_matrix_isMat (k n : Nat) (A B : Mat R) (hA : IsMat A n k) (hB : IsMat B n k) :
    copy_matrix A B n k = some B := by
  conv_lhs => rw [eq_matOf_of_isMat A n k hA, eq_matOf_of_isMat B n k hB]
  rw [copy_matrix_matOf, ← eq_matOf_of_isMat B n k hB]

theorem forRange_none {σ : Type} (body : Nat → σ → Option σ) (g : Nat → σ) (m : Nat)
    (hm : body m (g m) = none) :
    ∀ (cnt i : Nat), i ≤ m → m < i + cnt →
      (∀ j, i ≤ j → j < m → body j (g j) = some (g (j + 1))) →
      forRange body cnt i (g i) = none
  | 0, i, h1, h2, _ => by omega
  | cnt + 1, i, h1, h2, h => by
    simp only [forRange]
    by_cases him : i = m
    · subst him
      rw [hm]
      rfl
    · rw [h i (le_refl _) (by omega), Option.some_bind]
      exact forRange_none body g m hm cnt (i + 1) (by omega) (by omega)
        (fun j hj1 hj2 => h j (by omega) hj2)

theorem forLoop_none {σ : Type} (body : Nat → σ → Option σ) (g : Nat → σ) (lo hi m : Nat)
    (h1 : lo ≤ m) (h2 : m < hi) (hm : body m (g m) = none)
    (h : ∀ j, lo ≤ j → j < m → body j (g j) = some (g (j + 1))) :
    forLoop lo hi body (g lo) = none :=
  forRange_none body g m hm (hi - lo) lo h1 (by omega) h

theorem mget_matOf_none (r c : Nat) (f : Nat → Nat → R) (i j : Nat) (hi : i < r) (hj : c ≤ j) :
    mget (matOf r c f) i j = none := by
  simp only [mget, List.get?_eq_getElem?, matOf_get? r c f i hi, Option.some_bind]
  simp [hj]

/-- With `1 ≤ k < n` the request `transpose_matrix(H, k, num_points)` of `update_H` reads
`H[0][k]`, one cell past the end of row `0` of the `n × k` matrix `H`. -/
theorem transpose_matrix_none (f : Nat → Nat → R) (n k : Nat) (hk : 1 ≤ k) (hkn : k < n) :
    transpose_matrix (matOf n k f) k n = none := by
  unfold transpose_matrix
  apply forLoop_none _ (fun _ => (init_matrix n k : Mat R)) 0 k 0 (le_refl _) (by omega)
  · rw [init_matrix_eq]
    have h0 : matOf n k (fun _ _ => (0 : R)) =
        matOf n k (fun a b => if b = 0 ∧ a < 0 then f b a else 0) := by
      apply matOf_congr
      intro a b _ _
      rw [if_neg (by omega)]
    rw [h0]
    apply forLoop_none _
      (fun j => matOf n k (fun a b => if b = 0 ∧ a < j then f b a else 0)) 0 n k
      (Nat.zero_le _) hkn
    · rw [mget_matOf_none n k f 0 k (by omega) (le_refl _)]
      rfl
    · intro j _ hj
      simp only [mget_matOf n k f 0 j (by omega) hj, Option.some_bind,
        mset_matOf n k _ j 0 _ (by omega) (by omega), Option.some.injEq]
      apply matOf_congr
      intro a b _ _
      by_cases c1 : a = j ∧ b = 0
      · obtain ⟨rfl, rfl⟩ := c1
        rw [if_pos ⟨rfl, rfl⟩, if_pos (by omega)]
      · rw [if_neg c1]
        by_cases c2 : b = 0 ∧ a < j
        · rw [if_pos c2, if_pos (by omega)]
        · rw [if_neg c2, if_neg (by omega)]
  · intro j _ hj
    omega

theorem update_H_none (k n : Nat) (W H : Mat R) (hk : 1 ≤ k) (hkn : k < n)
    (hW : IsMat W n n) (hH : IsMat H n k) : update_H k n W H = none := by
  rw [eq_matOf_of_isMat W n n hW, eq_matOf_of_isMat H n k hH]
  unfold update_H multiply
  rw [matrix_multiply_matOf _ _ n n n k n n k le_rfl le_rfl le_rfl le_rfl,
    transpose_matrix_none _ n k hk hkn]
  rfl

theorem calculate_symnmf_loop_count (k n : Nat) (W : Mat R) :
    ∀ (fuel : Nat) (s s' : LoopState R), calculate_symnmf_loop k n W fuel s = some s' →
      s'.updates + s.iter = s.updates + s'.iter ∧ s.iter ≤ s'.iter ∧ s'.iter ≤ s.iter + fuel
  | 0, s, s', h => by
    simp only [calculate_symnmf_loop, Option.some.injEq] at h
    subst h
    omega
  | fuel + 1, s, s', h => by
    simp only [calculate_symnmf_loop, Option.bind_eq_some] at h
    obtain ⟨c, _, h⟩ := h
    cases c with
    | true =>
      simp only [if_true, Option.some.injEq] at h
      subst h
      omega
    | false =>
      simp only [Bool.false_eq_true, if_false, Option.bind_eq_some] at h
      obtain ⟨curr, _, temp, _, h⟩ := h
      have := calculate_symnmf_loop_count k n W fuel _ s' h
      simp only at this
      omega

theorem calculate_symnmf_loop_total (n : Nat) (W : Mat R) (hW : IsMat W n n) :
    ∀ (fuel : Nat) (s : LoopState R), IsMat s.curr_h n n → IsMat s.next_H n n →
      ∃ s', calculate_symnmf_loop n n W fuel s = some s' ∧ IsMat s'.next_H n n
  | 0, s, _, h2 => ⟨s, rfl, h2⟩
  | fuel + 1, s, h1, h2 => by
    simp only [calculate_symnmf_loop, has_converged_isMat n n _ _ h1 h2, Option.some_bind,
      copy_matrix_isMat n n _ _ h1 h2]
    split
    · exact ⟨s, rfl, h2⟩
    · have hu : ∃ temp, update_H n n W s.next_H = some temp := by
        rw [eq_matOf_of_isMat W n n hW, eq_matOf_of_isMat s.next_H n n h2, update_H_square]
        exact ⟨_, rfl⟩
      obtain ⟨temp, hu⟩ := hu
      rw [hu, Option.some_bind]
      exact calculate_symnmf_loop_total n W hW fuel _ h2 (update_H_isMat n n W _ temp hu)

theorem calculate_symnmf_loop_converges (k n : Nat) (W : Mat R) (Hs : Nat → Mat R)
    (jstar : Nat) (hdim : ∀ j, j ≤ jstar + 1 → IsMat (Hs j) n k)
    (hup : ∀ j, j ≤ jstar → update_H k n W (Hs j) = some (Hs (j + 1)))
    (hnc : ∀ j, j < jstar → has_converged k n (Hs j) (Hs (j + 1)) = some false)
    (hc : has_converged k n (Hs jstar) (Hs (jstar + 1)) = some true) :
    ∀ (fuel m it up : Nat), m ≤ jstar → jstar - m < fuel →
      ∃ s', calculate_symnmf_loop k n W fuel
          { curr_h := Hs m, next_H := Hs (m + 1), iter := it, updates := up } = some s' ∧
        s'.next_H = Hs (jstar + 1)
  | 0, m, it, up, _, h2 => by omega
  | fuel + 1, m, it, up, h1, h2 => by
    by_cases hm : m = jstar
    · subst hm
      simp only [calculate_symnmf_loop, hc, Option.some_bind, if_true]
      exact ⟨_, rfl, rfl⟩
    · have hlt : m < jstar := by omega
      simp only [calculate_symnmf_loop, hnc m hlt, Option.some_bind, Bool.false_eq_true,
        if_false, copy_matrix_isMat k n _ _ (hdim m (by omega)) (hdim (m + 1) (by omega)),
        hup (m + 1) (by omega)]
      exact calculate_symnmf_loop_converges k n W Hs jstar hdim hup hnc hc fuel (m + 1)
        (it + 1) (up + 1) (by omega) (by omega)

theorem matOf_one (f : Nat → Nat → R) : matOf 1 1 f = [[f 0 0]] := rfl

theorem update_H_one (w h : R) :
    update_H 1 1 [[w]] [[h]] = some [[h * (BETA * (w * h / (h * h * h)) + (1 - BETA))]] := by
  have hW : ([[w]] : Mat R) = matOf 1 1 (fun _ _ => w) := rfl
  have hH : ([[h]] : Mat R) = matOf 1 1 (fun _ _ => h) := rfl
  rw [hW, hH, update_H_square, matOf_one]
  simp [numer, denom]

theorem has_converged_one (a b : R) :
    has_converged 1 1 [[a]] [[b]] = some (decide ((b - a) * (b - a) < EPSILON)) := by
  have hA : ([[a]] : Mat R) = matOf 1 1 (fun _ _ => a) := rfl
  have hB : ([[b]] : Mat R) = matOf 1 1 (fun _ _ => b) := rfl
  rw [hA, hB, has_converged_matOf _ _ 1 1 1 1 1 1 le_rfl le_rfl le_rfl le_rfl]
  simp

theorem update_H_total (n : Nat) (W H : Mat R) (hW : IsMat W n n) (hH : IsMat H n n) :
    ∃ M, update_H n n W H = some M ∧ IsMat M n n := by
  have hu : ∃ M, update_H n n W H = some M := by
    rw [eq_matOf_of_isMat W n n hW, eq_matOf_of_isMat H n n hH, update_H_square]
    exact ⟨_, rfl⟩
  obtain ⟨M, hu⟩ := hu
  exact ⟨M, hu, update_H_isMat n n W H M hu⟩

theorem calculate_symnmf_total (n : Nat) (W H : Mat R) (hW : IsMat W n n) (hH : IsMat H n n) :
    ∃ M, calculate_symnmf n n W H = some M ∧ IsMat M n n := by
  obtain ⟨H1, hu, hH1⟩ := update_H_total n W H hW hH
  obtain ⟨s', hs', hd⟩ := calculate_symnmf_loop_total n W hW MAX_ITER
    { curr_h := H, next_H := H1, iter := 0, updates := 1 } hH hH1
  refine ⟨s'.next_H, ?_, hd⟩
  simp only [calculate_symnmf, calculate_symnmf_run, hu, Option.some_bind, hs',
    Option.map_some']

theorem iterates_prev (k n : Nat) (W H : Mat R) (j : Nat) (B : Mat R)
    (h : iterates k n W H (j + 1) = some B) :
    ∃ A, iterates k n W H j = some A ∧ update_H k n W A = some B := by
  simp only [iterates, Option.bind_eq_some] at h
  exact h

theorem iterates_defined (k n : Nat) (W H : Mat R) (j : Nat) (B : Mat R)
    (h : iterates k n W H j = some B) :
    ∀ i, i ≤ j → ∃ A, iterates k n W H i = some A := by
  induction j generalizing B with
  | zero =>
    intro i hi
    have : i = 0 := by omega
    subst this
    exact ⟨B, h⟩
  | succ j ih =>
    intro i hi
    obtain ⟨A, hA, _⟩ := iterates_prev k n W H j B h
    by_cases hij : i = j + 1
    · subst hij
      exact ⟨B, h⟩
    · exact ih A hA i (by omega)

theorem iterates_isMat (k n : Nat) (W H : Mat R) (hH : IsMat H n k) (j : Nat) (B : Mat R)
    (h : iterates k n W H j = some B) : IsMat B n k := by
  cases j with
  | zero =>
    simp only [iterates, Option.some.injEq] at h
    exact h ▸ hH
  | succ j =>
    obtain ⟨A, _, hAB⟩ := iterates_prev k n W H j B h
    exact update_H_isMat k n W A B hAB

theorem calculate_symnmf_first_converged (k n : Nat) (W H0 : Mat R) (hH : IsMat H0 n k)
    (jstar : Nat) (hlt : jstar < MAX_ITER) (Hj Hj1 : Mat R)
    (h1 : iterates k n W H0 jstar = some Hj) (h2 : iterates k n W H0 (jstar + 1) = some Hj1)
    (hc : has_converged k n Hj Hj1 = some true)
    (hleast : ∀ j, j < jstar → ∀ A B, iterates k n W H0 j = some A →
      iterates k n W H0 (j + 1) = some B → has_converged k n A B ≠ some true) :
    calculate_symnmf k n W H0 = some Hj1 := by
  have hdef := iterates_defined k n W H0 (jstar + 1) Hj1 h2
  have hsome : ∀ j, j ≤ jstar + 1 →
      iterates k n W H0 j = some ((iterates k n W H0 j).getD []) := by
    intro j hj
    obtain ⟨A, hA⟩ := hdef j hj
    rw [hA]
    rfl
  have hdim : ∀ j, j ≤ jstar + 1 → IsMat ((iterates k n W H0 j).getD []) n k :=
    fun j hj => iterates_isMat k n W H0 hH j _ (hsome j hj)
  have hup : ∀ j, j ≤ jstar → update_H k n W ((iterates k n W H0 j).getD []) =
      some ((iterates k n W H0 (j + 1)).getD []) := by
    intro j hj
    obtain ⟨A, hA, hAB⟩ := iterates_prev k n W H0 j _ (hsome (j + 1) (by omega))
    rw [hA]
    exact hAB
  have hnc : ∀ j, j < jstar → has_converged k n ((iterates k n W H0 j).getD [])
      ((iterates k n W H0 (j + 1)).getD []) = some false := by
    intro j hj
    have hne := hleast j hj _ _ (hsome j (by omega)) (hsome (j + 1) (by omega))
    rw [has_converged_isMat k n _ _ (hdim j (by omega)) (hdim (j + 1) (by omega))] at hne ⊢
    cases hd : decide ((∑ i in Finset.range n, ∑ j_1 in Finset.range k,
        (entry ((iterates k n W H0 (j + 1)).getD []) i j_1 -
          entry ((iterates k n W H0 j).getD []) i j_1) *
        (entry ((iterates k n W H0 (j + 1)).getD []) i j_1 -
          entry ((iterates k n W H0 j).getD []) i j_1)) < (EPSILON : R)) with
    | false => rfl
    | true => rw [hd] at hne; exact absurd rfl hne
  have hc' : has_converged k n ((iterates k n W H0 jstar).getD [])
      ((iterates k n W H0 (jstar + 1)).getD []) = some true := by
    rw [h1, h2]
    exact hc
  obtain ⟨s', hs', hnext⟩ := calculate_symnmf_loop_converges k n W
    (fun j => (iterates k n W H0 j).getD []) jstar hdim hup hnc hc' MAX_ITER 0 0 1
    (Nat.zero_le _) (by omega)
  have hu0 : update_H k n W H0 = some ((iterates k n W H0 1).getD []) := by
    have := hup 0 (Nat.zero_le _)
    simpa [iterates] using this
  have hH0 : (iterates k n W H0 0).getD [] = H0 := rfl
  simp only [hH0] at hs'
  simp only [calculate_symnmf, calculate_symnmf_run, hu0, Option.some_bind, hs',
    Option.map_some', hnext, h2, Option.getD_some]

theorem matrix_multiply_isMat (A B M : Mat R) (rows1 cols1 cols2 : Nat)
    (h : matrix_multiply A B rows1 cols1 cols2 = some M) : IsMat M rows1 cols2 := by
  unfold matrix_multiply at h
  refine forLoop_preserves _ (fun m => IsMat m rows1 cols2) ?_ 0 rows1 _ M
    (isMat_init_matrix rows1 cols2) h
  intro i s s' hs hi
  refine forLoop_preserves _ (fun m => IsMat m rows1 cols2) ?_ 0 cols2 _ s' hs hi
  intro j t t' ht hj
  refine forLoop_preserves _ (fun m => IsMat m rows1 cols2) ?_ 0 cols1 _ t' ht hj
  intro l u u' hu hl
  simp only [Option.bind_eq_some] at hl
  obtain ⟨_, _, _, _, _, _, hl⟩ := hl
  exact mset_isMat u u' rows1 cols2 i j _ hu hl

/-- Cells of the result of `update_H`, in terms of the numerator `WH` and the denominator it
computes, for every `k` and `n` for which the run stays in bounds. -/
theorem update_H_cells (k n : Nat) (W H M : Mat R) (hH : IsMat H n k)
    (h : update_H k n W H = some M) :
    ∃ WH Den, multiply W H n n k = some WH ∧ update_H_denominator k n H = some Den ∧
      M = matOf n k (fun i j =>
        entry H i j * (BETA * (entry WH i j / entry Den i j) + (1 - BETA))) := by
  unfold update_H at h
  simp only [Option.bind_eq_some] at h
  obtain ⟨WH, h1, Ht, h2, HHt, h3, HHtH, h4, h⟩ := h
  refine ⟨WH, HHtH, h1, ?_, ?_⟩
  · simp only [update_H_denominator, h2, Option.some_bind, h3, h4]
  · have hWH : IsMat WH n k := matrix_multiply_isMat _ _ _ n n k h1
    have hDen : IsMat HHtH n k := matrix_multiply_isMat _ _ _ n n k h4
    rw [eq_matOf_of_isMat WH n k hWH, eq_matOf_of_isMat HHtH n k hDen,
      eq_matOf_of_isMat H n k hH] at h
    have hfill := fill_loops n k
      (fun i j => entry H i j * (BETA * (entry WH i j / entry HHtH i j) + (1 - BETA)))
      (fun i j next_H =>
        (mget (matOf n k (entry WH)) i j).bind (fun wh =>
        (mget (matOf n k (entry HHtH)) i j).bind (fun den =>
        (mget (matOf n k (entry H)) i j).bind (fun hh =>
          mset next_H i j (hh * (BETA * (wh / den) + (1 - BETA)))))))
      (by
        intro i j g hi hj
        simp only [mget_matOf n k _ i j hi hj, Option.some_bind, mset_matOf n k g i j _ hi hj])
    rw [hfill] at h
    exact (Option.some.inj h).symm

theorem multiply_cells (W H WH : Mat R) (n k : Nat) (hW : IsMat W n n) (hH : IsMat H n k)
    (h : multiply W H n n k = some WH) :
    WH = matOf n k (fun i j => ∑ l in Finset.range n, entry W i l * entry H l j) := by
  rw [eq_matOf_of_isMat W n n hW, eq_matOf_of_isMat H n k hH, multiply,
    matrix_multiply_matOf _ _ n n n k n n k le_rfl le_rfl le_rfl le_rfl] at h
  rw [← Option.some.inj h]

/-- One update keeps `H` entrywise nonnegative when `W` and `H` are entrywise nonnegative
and every cell of the denominator is positive. -/
theorem update_H_nonneg_of_pos (k n : Nat) (W H M Den : Mat R) (hW : IsMat W n n)
    (hH : IsMat H n k) (hWnn : ∀ i j, i < n → j < n → 0 ≤ entry W i j)
    (hHnn : ∀ i j, i < n → j < k → 0 ≤ entry H i j)
    (hM : update_H k n W H = some M) (hD : update_H_denominator k n H = some Den)
    (hpos : ∀ i j, i < n → j < k → 0 < entry Den i j) :
    ∀ i j, i < n → j < k → 0 ≤ entry M i j := by
  obtain ⟨WH, Den', h1, h2, hcells⟩ := update_H_cells k n W H M hH hM
  rw [hD, Option.some.injEq] at h2
  subst h2
  have hWH := multiply_cells W H WH n k hW hH h1
  intro i j hi hj
  rw [hcells, entry_matOf n k _ i j hi hj]
  have hnum : 0 ≤ entry WH i j := by
    rw [hWH, entry_matOf n k _ i j hi hj]
    apply Finset.sum_nonneg
    intro l hl
    exact mul_nonneg (hWnn i l hi (Finset.mem_range.mp hl)) (hHnn l j (Finset.mem_range.mp hl) hj)
  have hratio : 0 ≤ entry WH i j / entry Den i j := div_nonneg hnum (hpos i j hi hj).le
  have hb : (0 : R) ≤ BETA := by unfold BETA; norm_num
  have hb1 : (0 : R) ≤ 1 - BETA := by unfold BETA; norm_num
  exact mul_nonneg (hHnn i j hi hj) (add_nonneg (mul_nonneg hb hratio) hb1)

theorem update_H_denominator_defined (k n : Nat) (W H M : Mat R)
    (h : update_H k n W H = some M) : ∃ Den, update_H_denominator k n H = some Den := by
  unfold update_H at h
  simp only [Option.bind_eq_some] at h
  obtain ⟨WH, _, Ht, h2, HHt, h3, HHtH, h4, _⟩ := h
  exact ⟨HHtH, by simp only [update_H_denominator, h2, Option.some_bind, h3, h4]⟩

theorem iterates_nonneg (k n : Nat) (W H0 : Mat R) (hW : IsMat W n n) (hH : IsMat H0 n k)
    (hWnn : ∀ i j, i < n → j < n → 0 ≤ entry W i j)
    (hHnn : ∀ i j, i < n → j < k → 0 ≤ entry H0 i j) :
    ∀ (m : Nat) (Hm : Mat R), iterates k n W H0 m = some Hm →
      (∀ l, l < m → ∀ Hl Den, iterates k n W H0 l = some Hl →
        update_H_denominator k n Hl = some Den → ∀ i j, i < n → j < k → 0 < entry Den i j) →
      ∀ i j, i < n → j < k → 0 ≤ entry Hm i j
  | 0, Hm, h, _ => by
    simp only [iterates, Option.some.injEq] at h
    subst h
    exact hHnn
  | m + 1, Hm, h, hden => by
    obtain ⟨A, hA, hAB⟩ := iterates_prev k n W H0 m Hm h
    have hAnn := iterates_nonneg k n W H0 hW hH hWnn hHnn m A hA
      (fun l hl => hden l (by omega))
    obtain ⟨Den, hDen⟩ := update_H_denominator_defined k n W A Hm hAB
    exact update_H_nonneg_of_pos k n W A Hm Den hW (iterates_isMat k n W H0 hH m A hA) hWnn hAnn
      hAB hDen (hden m (by omega) A Den hA hDen)

/-- The state of the loop of `calculate_symnmf` always holds two consecutive iterates:
`curr_h` is iterate number `iter` and `next_H` is iterate number `iter + 1`. -/
theorem calculate_symnmf_loop_iterates (k n : Nat) (W H0 : Mat R) (hH : IsMat H0 n k) :
    ∀ (fuel : Nat) (s s' : LoopState R),
      iterates k n W H0 s.iter = some s.curr_h →
      iterates k n W H0 (s.iter + 1) = some s.next_H →
      calculate_symnmf_loop k n W fuel s = some s' →
      iterates k n W H0 s'.iter = some s'.curr_h ∧
        iterates k n W H0 (s'.iter + 1) = some s'.next_H
  | 0, s, s', h1, h2, h => by
    simp only [calculate_symnmf_loop, Option.some.injEq] at h
    subst h
    exact ⟨h1, h2⟩
  | fuel + 1, s, s', h1, h2, h => by
    simp only [calculate_symnmf_loop, Option.bind_eq_some] at h
    obtain ⟨c, _, h⟩ := h
    cases c with
    | true =>
      simp only [if_true, Option.some.injEq] at h
      subst h
      exact ⟨h1, h2⟩
    | false =>
      simp only [Bool.false_eq_true, if_false, Option.bind_eq_some] at h
      obtain ⟨curr, hcopy, temp, hup, h⟩ := h
      rw [copy_matrix_isMat k n _ _ (iterates_isMat k n W H0 hH _ _ h1)
        (iterates_isMat k n W H0 hH _ _ h2), Option.some.injEq] at hcopy
      subst hcopy
      refine calculate_symnmf_loop_iterates k n W H0 hH fuel _ s' h2 ?_ h
      show iterates k n W H0 (s.iter + 1 + 1) = some temp
      rw [iterates, h2, Option.some_bind]
      exact hup

theorem calculate_symnmf_run_iterates (k n : Nat) (W H0 : Mat R) (hH : IsMat H0 n k)
    (s : LoopState R) (h : calculate_symnmf_run k n W H0 = some s) :
    iterates k n W H0 s.iter = some s.curr_h ∧
      iterates k n W H0 (s.iter + 1) = some s.next_H ∧ s.iter ≤ MAX_ITER ∧
      s.updates = s.iter + 1 := by
  simp only [calculate_symnmf_run, Option.bind_eq_some] at h
  obtain ⟨H1, hu, h⟩ := h
  have h1 := calculate_symnmf_loop_iterates k n W H0 hH MAX_ITER
    { curr_h := H0, next_H := H1, iter := 0, updates := 1 } s rfl
    (by simp only [iterates, Option.some_bind]; exact hu) h
  have h2 := calculate_symnmf_loop_count k n W MAX_ITER _ s h
  simp only at h2
  exact ⟨h1.1, h1.2, by omega, by omega⟩

theorem forRange_lift {σ τ : Type} (emb : τ → σ) (bodyH : Nat → σ → Option σ)
    (body : Nat → τ → Option τ) (hb : ∀ i t, bodyH i (emb t) = (body i t).map emb) :
    ∀ (cnt i : Nat) (t : τ), forRange bodyH cnt i (emb t) = (forRange body cnt i t).map emb
  | 0, _, _ => rfl
  | cnt + 1, i, t => by
    simp only [forRange, hb]
    cases body i t with
    | none => rfl
    | some u =>
      simp only [Option.map_some', Option.some_bind]
      exact forRange_lift emb bodyH body hb cnt (i + 1) u

/-- A loop on the heap whose passes act on one matrix of the heap only is the loop on that
matrix. -/
theorem forLoop_lift {σ τ : Type} (emb : τ → σ) (bodyH : Nat → σ → Option σ)
    (body : Nat → τ → Option τ) (hb : ∀ i t, bodyH i (emb t) = (body i t).map emb)
    (lo hi : Nat) (t : τ) :
    forLoop lo hi bodyH (emb t) = (forLoop lo hi body t).map emb :=
  forRange_lift emb bodyH body hb (hi - lo) lo t

theorem hread_of_get? (h : Heap R) (p i j : Nat) (m : Mat R) (hm : h[p]? = some m) :
    hread h p i j = mget m i j := by
  simp only [hread, List.get?_eq_getElem?, hm, Option.some_bind]

theorem lt_of_get?_eq_some {α : Type} (l : List α) (p : Nat) (a : α) (h : l[p]? = some a) :
    p < l.length := by
  obtain ⟨hp, _⟩ := List.getElem?_eq_some.mp h
  exact hp

theorem get?_mid_self (h post : Heap R) (m : Mat R) :
    (h ++ m :: post)[h.length]? = some m := by
  rw [List.getElem?_append_right (le_refl _)]
  simp

theorem get?_mid_left (h post : Heap R) (m A : Mat R) (p : Nat) (hA : h[p]? = some A) :
    (h ++ m :: post)[p]? = some A := by
  rw [List.getElem?_append_left (lt_of_get?_eq_some h p A hA)]
  exact hA

theorem get?_mid_right (h post : Heap R) (m X : Mat R) (q : Nat) (hX : post[q]? = some X) :
    (h ++ m :: post)[h.length + 1 + q]? = some X := by
  rw [List.getElem?_append_right (by omega)]
  have e : h.length + 1 + q - h.length = q + 1 := by omega
  rw [e]
  simpa using hX

theorem hwrite_mid (h post : Heap R) (m : Mat R) (i j : Nat) (v : R) :
    hwrite (h ++ m :: post) h.length i j v =
      (mset m i j v).map (fun m' => h ++ m' :: post) := by
  simp only [hwrite, List.get?_eq_getElem?, get?_mid_self, Option.some_bind]
  congr 1
  funext m'
  rw [List.set_append_right _ _ (le_refl _)]
  simp

theorem matrix_multiply_heap_eq (h : Heap R) (mat1 mat2 rows1 cols1 cols2 : Nat) (A B : Mat R)
    (hA : h[mat1]? = some A) (hB : h[mat2]? = some B) :
    matrix_multiply_heap h mat1 mat2 rows1 cols1 cols2 =
      (matrix_multiply A B rows1 cols1 cols2).map (fun M => (h ++ [M], h.length)) := by
  unfold matrix_multiply_heap matrix_multiply init_matrix_heap
  simp only []
  rw [forLoop_lift (fun m => h ++ [m]) _
    (fun i result =>
      forLoop 0 cols2 (fun j result =>
        forLoop 0 cols1 (fun k result =>
          (mget result i j).bind (fun r =>
          (mget A i k).bind (fun a =>
          (mget B k j).bind (fun b =>
            mset result i j (r + a * b))))) result) result)]
  · rw [Option.map_map]
    rfl
  · intro i t
    apply forLoop_lift (fun m => h ++ [m])
    intro j t
    apply forLoop_lift (fun m => h ++ [m])
    intro l t
    show ((hread (h ++ t :: []) h.length i j).bind fun r =>
      (hread (h ++ t :: []) mat1 i l).bind fun x =>
      (hread (h ++ t :: []) mat2 l j).bind fun y =>
        hwrite (h ++ t :: []) h.length i j (r + x * y)) = _
    simp only [hread_of_get? _ _ _ _ _ (get?_mid_self h [] t),
      hread_of_get? _ _ _ _ _ (get?_mid_left h [] t A mat1 hA),
      hread_of_get? _ _ _ _ _ (get?_mid_left h [] t B mat2 hB), hwrite_mid]
    cases mget t i j with
    | none => rfl
    | some r =>
      cases mget A i l with
      | none => rfl
      | some x =>
        cases mget B l j with
        | none => rfl
        | some y => rfl

theorem transpose_matrix_heap_eq (h : Heap R) (matrix rows cols : Nat) (A : Mat R)
    (hA : h[matrix]? = some A) :
    transpose_matrix_heap h matrix rows cols =
      (transpose_matrix A rows cols).map (fun M => (h ++ [M], h.length)) := by
  unfold transpose_matrix_heap transpose_matrix init_matrix_heap
  simp only []
  rw [forLoop_lift (fun m => h ++ [m]) _
    (fun i result =>
      forLoop 0 cols (fun j result =>
        (mget A i j).bind (fun v => mset result j i v)) result)]
  · rw [Option.map_map]
    rfl
  · intro i t
    apply forLoop_lift (fun m => h ++ [m])
    intro j t
    show ((hread (h ++ t :: []) matrix i j).bind fun v =>
      hwrite (h ++ t :: []) h.length j i v) = _
    simp only [hread_of_get? _ _ _ _ _ (get?_mid_left h [] t A matrix hA), hwrite_mid]
    cases mget A i j with
    | none => rfl
    | some v => rfl

theorem has_converged_heap_eq (h : Heap R) (k n pH pN : Nat) (A B : Mat R)
    (hA : h[pH]? = some A) (hB : h[pN]? = some B) :
    has_converged_heap h k n pH pN = has_converged k n A B := by
  unfold has_converged_heap has_converged
  simp only [hread_of_get? h pH _ _ A hA, hread_of_get? h pN _ _ B hB]

theorem update_H_fill_heap (h post : Heap R) (n k qWH qDen pH : Nat) (WH Den Hm t : Mat R)
    (hWH : post[qWH]? = some WH) (hDen : post[qDen]? = some Den) (hH : h[pH]? = some Hm) :
    forLoop 0 n (fun i hp =>
      forLoop 0 k (fun j hp =>
        (hread hp (h.length + 1 + qWH) i j).bind (fun wh =>
        (hread hp (h.length + 1 + qDen) i j).bind (fun den =>
        (hread hp pH i j).bind (fun hh =>
          let ratio := wh / den
          hwrite hp h.length i j (hh * (BETA * ratio + (1 - BETA))))))) hp) (h ++ t :: post) =
    (forLoop 0 n (fun i next_H =>
      forLoop 0 k (fun j next_H =>
        (mget WH i j).bind (fun wh =>
        (mget Den i j).bind (fun den =>
        (mget Hm i j).bind (fun hh =>
          let ratio := wh / den
          mset next_H i j (hh * (BETA * ratio + (1 - BETA))))))) next_H) t).map
      (fun m => h ++ m :: post) := by
  apply forLoop_lift (fun m => h ++ m :: post)
  intro i t
  apply forLoop_lift (fun m => h ++ m :: post)
  intro j t
  simp only [hread_of_get? _ _ _ _ _ (get?_mid_right h post t WH qWH hWH),
    hread_of_get? _ _ _ _ _ (get?_mid_right h post t Den qDen hDen),
    hread_of_get? _ _ _ _ _ (get?_mid_left h post t Hm pH hH), hwrite_mid]
  cases mget WH i j with
  | none => rfl
  | some wh =>
    cases mget Den i j with
    | none => rfl
    | some den =>
      cases mget Hm i j with
      | none => rfl
      | some hh => rfl

theorem set_append_add {α : Type} (h l : List α) (c : Nat) (x : α) :
    (h ++ l).set (h.length + c) x = h ++ l.set c x := by
  rw [List.set_append_right _ _ (Nat.le_add_right _ _)]
  congr 2
  omega

theorem free_temporaries (h : Heap R) (M WH Ht HHt HHtH : Mat R) :
    free_matrix_heap (free_matrix_heap (free_matrix_heap (free_matrix_heap
      (h ++ M :: [WH, Ht, HHt, HHtH]) (h.length + 1 + 0)) (h.length + 1 + 1))
      (h.length + 1 + 2)) (h.length + 1 + 3) = h ++ [M, [], [], [], []] := by
  simp only [free_matrix_heap]
  have e0 : h.length + 1 + 0 = h.length + 1 := rfl
  have e1 : h.length + 1 + 1 = h.length + 2 := rfl
  have e2 : h.length + 1 + 2 = h.length + 3 := rfl
  have e3 : h.length + 1 + 3 = h.length + 4 := rfl
  rw [e0, e1, e2, e3, set_append_add, set_append_add, set_append_add, set_append_add]
  rfl

theorem update_H_heap_eq (h : Heap R) (k n pW pH : Nat) (W Hm : Mat R)
    (hW : h[pW]? = some W) (hH : h[pH]? = some Hm) :
    update_H_heap h k n pW pH =
      (update_H k n W Hm).map (fun M => (h ++ [M, [], [], [], []], h.length)) := by
  unfold update_H_heap update_H multiply_heap multiply init_matrix_heap
  simp only []
  have hW0 := get?_mid_left h [] (init_matrix n k) W pW hW
  have hH0 := get?_mid_left h [] (init_matrix n k) Hm pH hH
  rw [matrix_multiply_heap_eq _ pW pH n n k W Hm hW0 hH0]
  cases matrix_multiply W Hm n n k with
  | none => rfl
  | some WH =>
    simp only [Option.map_some', Option.some_bind]
    have hH1 := get?_mid_left _ [] WH Hm pH hH0
    rw [transpose_matrix_heap_eq _ pH k n Hm hH1]
    cases transpose_matrix Hm k n with
    | none => rfl
    | some Ht =>
      simp only [Option.map_some', Option.some_bind]
      have hH2 := get?_mid_left _ [] Ht Hm pH hH1
      have hHt2 := get?_mid_self (h ++ [init_matrix n k] ++ [WH]) [] Ht
      rw [matrix_multiply_heap_eq _ pH _ n k n Hm Ht hH2 hHt2]
      cases matrix_multiply Hm Ht n k n with
      | none => rfl
      | some HHt =>
        simp only [Option.map_some', Option.some_bind]
        have hH3 := get?_mid_left _ [] HHt Hm pH hH2
        have hHHt3 := get?_mid_self (h ++ [init_matrix n k] ++ [WH] ++ [Ht]) [] HHt
        rw [matrix_multiply_heap_eq _ _ pH n n k HHt Hm hHHt3 hH3]
        cases matrix_multiply HHt Hm n n k with
        | none => rfl
        | some HHtH =>
          simp only [Option.map_some', Option.some_bind]
          have hshape : h ++ [init_matrix n k] ++ [WH] ++ [Ht] ++ [HHt] ++ [HHtH] =
              h ++ init_matrix n k :: [WH, Ht, HHt, HHtH] := by
            simp
          have l1 : (h ++ [(init_matrix n k : Mat R)]).length = h.length + 1 + 0 := by simp
          have l2 : (h ++ [(init_matrix n k : Mat R)] ++ [WH]).length = h.length + 1 + 1 := by
            simp
          have l3 : (h ++ [(init_matrix n k : Mat R)] ++ [WH] ++ [Ht]).length =
              h.length + 1 + 2 := by simp
          have l4 : (h ++ [(init_matrix n k : Mat R)] ++ [WH] ++ [Ht] ++ [HHt]).length =
              h.length + 1 + 3 := by simp
          rw [hshape, l1, l2, l3, l4,
            update_H_fill_heap h [WH, Ht, HHt, HHtH] n k 0 3 pH WH HHtH Hm (init_matrix n k)
              rfl rfl hH]
          cases forLoop 0 n (fun i next_H =>
            forLoop 0 k (fun j next_H =>
              (mget WH i j).bind (fun wh =>
              (mget HHtH i j).bind (fun den =>
              (mget Hm i j).bind (fun hh =>
                let ratio := wh / den
                mset next_H i j (hh * (BETA * ratio + (1 - BETA))))))) next_H)
            (init_matrix n k) with
          | none => rfl
          | some M =>
            simp only [Option.map_some']
            rw [free_temporaries]

theorem set_of_get? {α : Type} (l : List α) (p : Nat) (a : α) (h : l[p]? = some a) :
    l.set p a = l := by
  apply List.ext_getElem?
  intro q
  by_cases hq : p = q
  · subst hq
    rw [List.getElem?_set_self (lt_of_get?_eq_some l p a h), h]
  · rw [List.getElem?_set_ne hq]

theorem copy_matrix_heap_eq (h : Heap R) (dest src rows cols : Nat) (D S : Mat R)
    (hne : dest ≠ src) (hD : h[dest]? = some D) (hS : h[src]? = some S) :
    copy_matrix_heap h dest src rows cols =
      (copy_matrix D S rows cols).map (fun D' => h.set dest D') := by
  have hlt : dest < h.length := lt_of_get?_eq_some h dest D hD
  unfold copy_matrix_heap copy_matrix
  conv_lhs => rw [← set_of_get? h dest D hD]
  apply forLoop_lift (fun m => h.set dest m)
  intro i t
  simp only [List.get?_eq_getElem?, List.getElem?_set_self hlt, List.getElem?_set_ne hne, hS,
    Option.some_bind, List.set_set]
  cases t[i]? with
  | none => rfl
  | some drow =>
    cases S[i]? with
    | none => rfl
    | some srow =>
      simp only [Option.some_bind]
      split <;> rfl

theorem calculate_symnmf_heap_loop_eq (k n pW pH : Nat) (W : Mat R) (hne : pW ≠ pH) :
    ∀ (fuel : Nat) (h : Heap R) (nx it : Nat) (s : LoopState R),
      h[pW]? = some W → h[pH]? = some s.curr_h → h[nx]? = some s.next_H →
      nx ≠ pW → nx ≠ pH →
      (calculate_symnmf_heap_loop k n pW pH fuel (h, nx, it)).map
          (fun r => (r.1[pW]?, r.1[pH]?, r.1[r.2.1]?)) =
        (calculate_symnmf_loop k n W fuel s).map
          (fun s' => (some W, some s'.curr_h, some s'.next_H))
  | 0, h, nx, it, s, hW, hH, hN, _, _ => by
    simp only [calculate_symnmf_heap_loop, calculate_symnmf_loop, Option.map_some', hW, hH, hN]
  | fuel + 1, h, nx, it, s, hW, hH, hN, hnW, hnH => by
    simp only [calculate_symnmf_heap_loop, calculate_symnmf_loop,
      has_converged_heap_eq h k n pH nx _ _ hH hN]
    cases has_converged k n s.curr_h s.next_H with
    | none => rfl
    | some c =>
      cases c with
      | true =>
        simp only [Option.some_bind, if_true, Option.map_some', hW, hH, hN]
      | false =>
        simp only [Option.some_bind, Bool.false_eq_true, if_false]
        rw [copy_matrix_heap_eq h pH nx n k _ _ (Ne.symm hnH) hH hN]
        cases copy_matrix s.curr_h s.next_H n k with
        | none => rfl
        | some curr =>
          simp only [Option.map_some', Option.some_bind]
          have hlt : pH < h.length := lt_of_get?_eq_some h pH _ hH
          have hnlt : nx < h.length := lt_of_get?_eq_some h nx _ hN
          have hW1 : (h.set pH curr)[pW]? = some W := by
            rw [List.getElem?_set_ne (Ne.symm hne)]
            exact hW
          have hH1 : (h.set pH curr)[pH]? = some curr := List.getElem?_set_self hlt
          rw [update_H_heap_eq (h.set pH curr) k n pW pH W curr hW1 hH1]
          cases update_H k n W curr with
          | none => rfl
          | some temp =>
            simp only [Option.map_some', Option.some_bind]
            have hlen : (h.set pH curr).length = h.length := List.length_set _ _ _
            refine calculate_symnmf_heap_loop_eq k n pW pH W hne fuel _ _ _
              { curr_h := curr, next_H := temp, iter := s.iter + 1, updates := s.updates + 1 }
              ?_ ?_ ?_ ?_ ?_
            · show (List.set _ nx [])[pW]? = some W
              rw [List.getElem?_set_ne hnW]
              exact get?_mid_left _ _ temp W pW hW1
            · show (List.set _ nx [])[pH]? = some curr
              rw [List.getElem?_set_ne hnH]
              exact get?_mid_left _ _ temp curr pH hH1
            · show (List.set _ nx [])[(h.set pH curr).length]? = some temp
              rw [List.getElem?_set_ne (by omega)]
              exact get?_mid_self _ _ temp
            · have := lt_of_get?_eq_some h pW W hW
              omega
            · omega

theorem calculate_symnmf_heap_eq (h : Heap R) (k n pW pH : Nat) (W H0 : Mat R)
    (hne : pW ≠ pH) (hW : h[pW]? = some W) (hH : h[pH]? = some H0) :
    (calculate_symnmf_heap h k n pW pH).map (fun r => (r.1[pW]?, r.1[pH]?, r.1[r.2]?)) =
      (calculate_symnmf_run k n W H0).map
        (fun s => (some W, some s.curr_h, some s.next_H)) := by
  unfold calculate_symnmf_heap calculate_symnmf_run
  rw [update_H_heap_eq h k n pW pH W H0 hW hH]
  cases update_H k n W H0 with
  | none => rfl
  | some H1 =>
    simp only [Option.map_some', Option.some_bind, Option.map_map]
    have hltW := lt_of_get?_eq_some h pW W hW
    have hltH := lt_of_get?_eq_some h pH H0 hH
    exact calculate_symnmf_heap_loop_eq k n pW pH W hne MAX_ITER _ h.length 0
      { curr_h := H0, next_H := H1, iter := 0, updates := 1 }
      (get?_mid_left h _ H1 W pW hW) (get?_mid_left h _ H1 H0 pH hH) (get?_mid_self h _ H1)
      (by omega) (by omega)

theorem scan_first_line_rest : ∀ (file : List Char) (features : Nat),
    (scan_first_line file features).2 = (getline file).getD []
  | [], _ => rfl
  | ch :: rest, features => by
    by_cases hc : ch = '\n'
    · simp only [scan_first_line, getline, hc, if_true, Option.getD_some]
    · simp only [scan_first_line, getline, hc, if_false, Option.getD_some]
      exact scan_first_line_rest rest _

theorem getline_length : ∀ (unread rest : List Char), getline unread = some rest →
    rest.length < unread.length
  | [], rest, h => by simp [getline] at h
  | ch :: tl, rest, h => by
    simp only [getline, Option.some.injEq] at h
    by_cases hc : ch = '\n'
    · rw [if_pos hc] at h
      subst h
      simp
    · rw [if_neg hc] at h
      cases hg : getline tl with
      | none =>
        rw [hg] at h
        subst h
        simp
      | some r =>
        rw [hg] at h
        have := getline_length tl r hg
        subst h
        simp only [Option.getD_some, List.length_cons]
        omega

theorem count_lines_succ : ∀ (fuel : Nat) (unread : List Char) (num_points : Nat),
    count_lines fuel unread (num_points + 1) = count_lines fuel unread num_points + 1
  | 0, _, _ => rfl
  | fuel + 1, unread, num_points => by
    simp only [count_lines]
    cases getline unread with
    | none => rfl
    | some rest => exact count_lines_succ fuel rest (num_points + 1)

theorem count_lines_fuel : ∀ (fuel1 fuel2 : Nat) (unread : List Char) (num_points : Nat),
    unread.length < fuel1 → unread.length < fuel2 →
    count_lines fuel1 unread num_points = count_lines fuel2 unread num_points
  | 0, _, _, _, h1, _ => by omega
  | _ + 1, 0, _, _, _, h2 => by omega
  | fuel1 + 1, fuel2 + 1, unread, num_points, h1, h2 => by
    simp only [count_lines]
    cases hg : getline unread with
    | none => rfl
    | some rest =>
      have := getline_length unread rest hg
      exact count_lines_fuel fuel1 fuel2 rest (num_points + 1) (by omega) (by omega)

/-- For every non-empty file `get_dimensions` reports one point fewer than the number of
lines that `getline` counts from the start of the file. -/
theorem get_dimensions_num_points (file : List Char) (hne : file ≠ []) :
    (get_dimensions file).ret = 1 ∧
      (get_dimensions file).num_points + 1 = count_lines (file.length + 1) file 0 := by
  cases file with
  | nil => exact absurd rfl hne
  | cons ch tl =>
    refine ⟨rfl, ?_⟩
    have hrest := scan_first_line_rest (ch :: tl) 0
    have hg : getline (ch :: tl) = some (scan_first_line (ch :: tl) 0).2 := by
      rw [hrest]
      simp [getline]
    have hlen := getline_length _ _ hg
    show count_lines ((scan_first_line (ch :: tl) 0).2.length + 1)
      (scan_first_line (ch :: tl) 0).2 0 + 1 = count_lines ((ch :: tl).length + 1) (ch :: tl) 0
    conv_rhs => rw [count_lines, hg]
    simp only []
    rw [count_lines_succ]
    congr 1
    exact count_lines_fuel _ _ _ 0 (by omega) hlen

end Lemmas

end SymNMF

namespace SymNMF

section FactorizerFacts

theorem update_H_cycle_pos : update_H 1 1 ([[-3]] : Mat ℝ) [[1]] = some [[-1]] := by
  rw [update_H_one]
  norm_num [BETA]

end FactorizerFacts

section SimilarityFacts

theorem kernel_pos (points : Mat ℝ) (d a b : Nat) : 0 < kernel Real.exp points d a b :=
  Real.exp_pos _

theorem kernel_le_one (points : Mat ℝ) (d a b : Nat) : kernel Real.exp points d a b ≤ 1 := by
  unfold kernel
  rw [Real.exp_le_one_iff]
  have hs : 0 ≤ ∑ c in Finset.range d,
      (entry points a c - entry points b c) * (entry points a c - entry points b c) :=
    Finset.sum_nonneg (fun c _ => mul_self_nonneg _)
  have h05 : (-0.5 : ℝ) = -(1 / 2) := by norm_num
  rw [h05]
  linarith

/-- Cell `(a, b)` of the similarity matrix: `0` on the diagonal, the kernel elsewhere. -/
theorem sim_cell_nonneg (points : Mat ℝ) (d a b : Nat) :
    0 ≤ (if a = b then (0 : ℝ) else kernel Real.exp points d a b) := by
  split
  · exact le_refl _
  · exact (kernel_pos points d a b).le

theorem sim_cell_le_degree (points : Mat ℝ) (d n a b : Nat) (hb : b < n) :
    (if a = b then (0 : ℝ) else kernel Real.exp points d a b) ≤
      degree Real.exp points d n a := by
  unfold degree
  exact Finset.single_le_sum (f := fun c => if a = c then (0 : ℝ) else kernel Real.exp points d a c)
    (fun c _ => sim_cell_nonneg points d a c) (Finset.mem_range.mpr hb)

theorem sim_cell_comm (points : Mat ℝ) (d a b : Nat) :
    (if a = b then (0 : ℝ) else kernel Real.exp points d a b) =
      (if b = a then (0 : ℝ) else kernel Real.exp points d b a) := by
  by_cases h : a = b
  · rw [if_pos h, if_pos h.symm]
  · rw [if_neg h, if_neg (fun h' => h h'.symm)]
    exact kernel_comm Real.exp points d a b

theorem degree_eq_sum_entry (exp : ℝ → ℝ) (points : Mat ℝ) (d n i : Nat) (hi : i < n) :
    degree exp points d n i = ∑ j in Finset.range n,
      entry (matOf n n (fun a b => if a = b then 0 else kernel exp points d a b)) i j := by
  unfold degree
  apply Finset.sum_congr rfl
  intro j hj
  rw [entry_matOf n n _ i j hi (Finset.mem_range.mp hj)]

/-- With at least two points every degree is positive: some other point contributes a
value of `exp`. -/
theorem degree_pos (points : Mat ℝ) (d n i : Nat) (hn : 2 ≤ n) (_hi : i < n) :
    0 < degree Real.exp points d n i := by
  have hj : ∃ j, j < n ∧ i ≠ j := by
    by_cases h0 : i = 0
    · exact ⟨1, by omega, by omega⟩
    · exact ⟨0, by omega, h0⟩
  obtain ⟨j, hjn, hij⟩ := hj
  have h1 := sim_cell_le_degree points d n i j hjn
  rw [if_neg hij] at h1
  exact lt_of_lt_of_le (kernel_pos points d i j) h1

/-- Every cell of a matrix returned by `normalize_similarity_matrix` is nonnegative (cells
read as exact reals). -/
theorem normalize_similarity_matrix_cells_nonneg (n d : Nat) (points : Mat ℝ)
    (hp : IsMat points n d) :
    ∃ W, normalize_similarity_matrix Real.exp Real.sqrt n d points = some W ∧
      ∀ i j, i < n → j < n → 0 ≤ entry W i j := by
  refine ⟨_, normalize_similarity_matrix_eq Real.exp Real.sqrt n d points hp, ?_⟩
  intro i j hi hj
  rw [entry_matOf n n _ i j hi hj]
  have h1 : (1.0 : ℝ) = 1 := by norm_num
  rw [h1]
  exact mul_nonneg (mul_nonneg (one_div_nonneg.mpr (Real.sqrt_nonneg _))
    (sim_cell_nonneg points d i j)) (one_div_nonneg.mpr (Real.sqrt_nonneg _))

end SimilarityFacts

section Claims

/-- C2 fails on the code at `n = 2`, `k = 1`: `update_H` asks for
`transpose_matrix(H, k, num_points)`, which reads `H[0][1]` past the end of the one-cell
row `H[0]`, so the run leaves its buffers and no matrix is produced. -/
theorem update_H_rectangular_out_of_bounds :
    update_H 1 2 ([[0, 1], [1, 0]] : Mat ℝ) [[1], [1]] = none := by
  apply update_H_none 1 2 _ _ (le_refl _) (by decide)
  · exact ⟨rfl, by simp⟩
  · exact ⟨rfl, by simp⟩

/-- C3, as stated, fails: for the one-point dataset `{(0)}` the only degree
`D[0][0]` is `0`, and `normalize_similarity_matrix` still returns a matrix: the code has
no test of the degrees before it takes `1.0 / sqrt(D[i][i])`. -/
theorem normalize_zero_degree_counterexample :
    create_diagonal_matrix Real.exp 1 1 ([[0]] : Mat ℝ) = some [[0]] ∧
      ∃ W, normalize_similarity_matrix Real.exp Real.sqrt 1 1 ([[0]] : Mat ℝ) = some W := by
  have hp : IsMat ([[0]] : Mat ℝ) 1 1 := ⟨rfl, by simp⟩
  constructor
  · rw [create_diagonal_matrix_eq Real.exp 1 1 _ hp, matOf_one]
    simp [degree]
  · rw [normalize_similarity_matrix_eq Real.exp Real.sqrt 1 1 _ hp]
    exact ⟨_, rfl⟩

/-- C3, amended: `normalize_similarity_matrix` tests no degree; for every dataset of `n`
points of dimension `d` it returns an `n × n` matrix, also when some degree is zero. -/
theorem normalize_similarity_matrix_returns (n d : Nat) (points : Mat ℝ)
    (hp : IsMat points n d) :
    ∃ W, normalize_similarity_matrix Real.exp Real.sqrt n d points = some W ∧ IsMat W n n := by
  rw [normalize_similarity_matrix_eq Real.exp Real.sqrt n d points hp]
  exact ⟨_, rfl, isMat_matOf n n _⟩

theorem normalize_similarity_matrix_returns_witness :
    IsMat ([[0, 0], [3, 4]] : Mat ℝ) 2 2 ∧
      ∃ W, normalize_similarity_matrix Real.exp Real.sqrt 2 2 ([[0, 0], [3, 4]] : Mat ℝ) =
        some W ∧ IsMat W 2 2 :=
  ⟨⟨rfl, by simp⟩, normalize_similarity_matrix_returns 2 2 _ ⟨rfl, by simp⟩⟩

/-- C4, as stated, fails: with the all-zero `H` of `init_matrix` (`n = k = 2`) every cell
of the denominator `(H * Hᵀ) * H` is `0`, and both `update_H` and `calculate_symnmf`
still return a matrix: the code divides without testing the denominator. -/
theorem update_H_zero_denominator_counterexample :
    (transpose_matrix (init_matrix 2 2 : Mat ℝ) 2 2).bind (fun H_transpose =>
      (multiply (init_matrix 2 2) H_transpose 2 2 2).bind (fun HH_transpose =>
        multiply HH_transpose (init_matrix 2 2) 2 2 2)) = some [[0, 0], [0, 0]] ∧
      (∃ M, update_H 2 2 ([[0, 1], [1, 0]] : Mat ℝ) (init_matrix 2 2) = some M) ∧
      (∃ M, calculate_symnmf 2 2 ([[0, 1], [1, 0]] : Mat ℝ) (init_matrix 2 2) = some M) := by
  have hW : IsMat ([[0, 1], [1, 0]] : Mat ℝ) 2 2 := ⟨rfl, by simp⟩
  refine ⟨?_, ?_, ?_⟩
  · rw [init_matrix_eq, transpose_matrix_matOf _ 2 2 2 2 le_rfl le_rfl]
    simp only [Option.some_bind, multiply]
    rw [matrix_multiply_matOf _ _ 2 2 2 2 2 2 2 le_rfl le_rfl le_rfl le_rfl]
    simp only [Option.some_bind]
    rw [matrix_multiply_matOf _ _ 2 2 2 2 2 2 2 le_rfl le_rfl le_rfl le_rfl]
    simp [matOf, List.range_succ]
  · obtain ⟨M, hM, _⟩ := update_H_total 2 _ _ hW (isMat_init_matrix 2 2)
    exact ⟨M, hM⟩
  · obtain ⟨M, hM, _⟩ := calculate_symnmf_total 2 _ _ hW (isMat_init_matrix 2 2)
    exact ⟨M, hM⟩

/-- C4, amended: `update_H` and `calculate_symnmf` test no denominator; for `k = n`, every
`n × n` matrix `W` and every `n × n` matrix `H` they return an `n × n` matrix, also when
cells of the denominator `(H * Hᵀ) * H` are zero or negative. -/
theorem update_H_returns (n : Nat) (W H : Mat ℝ) (hW : IsMat W n n) (hH : IsMat H n n) :
    (∃ M, update_H n n W H = some M ∧ IsMat M n n) ∧
      (∃ M, calculate_symnmf n n W H = some M ∧ IsMat M n n) :=
  ⟨update_H_total n W H hW hH, calculate_symnmf_total n W H hW hH⟩

theorem update_H_returns_witness :
    IsMat ([[0, 1], [1, 0]] : Mat ℝ) 2 2 ∧ IsMat ([[1, 0], [0, -1]] : Mat ℝ) 2 2 ∧
      (∃ M, update_H 2 2 ([[0, 1], [1, 0]] : Mat ℝ) [[1, 0], [0, -1]] = some M ∧
        IsMat M 2 2) ∧
      (∃ M, calculate_symnmf 2 2 ([[0, 1], [1, 0]] : Mat ℝ) [[1, 0], [0, -1]] = some M ∧
        IsMat M 2 2) :=
  ⟨⟨rfl, by simp⟩, ⟨rfl, by simp⟩, update_H_returns 2 _ _ ⟨rfl, by simp⟩ ⟨rfl, by simp⟩⟩

/-- C5: with `H_0` the initial `n × k` matrix and `H_{j+1} = update_H(W, H_j)`, if `jstar`
is the least `j` with `has_converged(H_j, H_{j+1})` and `jstar < 300`, then
`calculate_symnmf` returns `H_{jstar+1}`; in particular, when `has_converged(H_0, H_1)`
holds, the result is the first update `H_1`. -/
theorem calculate_symnmf_returns_first_converged (k n : Nat) (W H0 : Mat ℝ)
    (hH : IsMat H0 n k) :
    (∀ (jstar : Nat) (Hj Hj1 : Mat ℝ), jstar < 300 →
      iterates k n W H0 jstar = some Hj → iterates k n W H0 (jstar + 1) = some Hj1 →
      has_converged k n Hj Hj1 = some true →
      (∀ j, j < jstar → ∀ A B, iterates k n W H0 j = some A →
        iterates k n W H0 (j + 1) = some B → has_converged k n A B ≠ some true) →
      calculate_symnmf k n W H0 = some Hj1) ∧
    (∀ H1 : Mat ℝ, update_H k n W H0 = some H1 → has_converged k n H0 H1 = some true →
      calculate_symnmf k n W H0 = some H1) := by
  constructor
  · intro jstar Hj Hj1 hlt h1 h2 hc hleast
    exact calculate_symnmf_first_converged k n W H0 hH jstar hlt Hj Hj1 h1 h2 hc hleast
  · intro H1 hu hc
    refine calculate_symnmf_first_converged k n W H0 hH 0 (by decide) H0 H1 rfl ?_ hc ?_
    · simp only [iterates, Option.some_bind, hu]
    · intro j hj
      omega

theorem calculate_symnmf_returns_first_converged_witness :
    IsMat ([[11 / 10]] : Mat ℝ) 1 1 ∧
      calculate_symnmf 1 1 ([[1]] : Mat ℝ) [[11 / 10]] = some [[97241 / 97240]] := by
  have hH : IsMat ([[11 / 10]] : Mat ℝ) 1 1 := ⟨rfl, by simp⟩
  have h1 : iterates 1 1 ([[1]] : Mat ℝ) [[11 / 10]] 1 = some [[221 / 220]] := by
    simp only [iterates, Option.some_bind, update_H_one]
    norm_num [BETA]
  have h2 : iterates 1 1 ([[1]] : Mat ℝ) [[11 / 10]] (1 + 1) = some [[97241 / 97240]] := by
    rw [iterates, h1, Option.some_bind, update_H_one]
    norm_num [BETA]
  have hc : has_converged 1 1 ([[221 / 220]] : Mat ℝ) [[97241 / 97240]] = some true := by
    rw [has_converged_one]
    norm_num [EPSILON]
  refine ⟨hH, (calculate_symnmf_returns_first_converged 1 1 [[1]] [[11 / 10]] hH).1 1 _ _
    (by decide) h1 h2 hc ?_⟩
  intro j hj A B hA hB
  have hj0 : j = 0 := by omega
  subst hj0
  rw [h1] at hB
  simp only [iterates, Option.some.injEq] at hA hB
  subst hA
  subst hB
  rw [has_converged_one]
  norm_num [EPSILON]

/-- C6: for a dataset of `n` points of dimension `d` and `i ≠ j` below `n`, cell `(i, j)` of
`create_similarity_matrix` is `exp(-1/2 * Σ_{c<d} (points[i][c] - points[j][c])^2)`; two
identical points have similarity exactly `1`; and for `{(0,0), (0,0), (10,10)}` cell
`(0, 1)` is `1` and cell `(0, 2)` is `exp(-100)`. -/
theorem create_similarity_matrix_entries :
    (∀ (n d : Nat) (points : Mat ℝ), IsMat points n d →
      ∃ A, create_similarity_matrix Real.exp n d points = some A ∧
        (∀ i j, i < n → j < n → i ≠ j →
          entry A i j = Real.exp (-(1 / 2) * ∑ c in Finset.range d,
            (entry points i c - entry points j c) ^ 2)) ∧
        (∀ i j, i < n → j < n → i ≠ j →
          (∀ c, c < d → entry points i c = entry points j c) → entry A i j = 1)) ∧
    (∃ A, create_similarity_matrix Real.exp 3 2 ([[0, 0], [0, 0], [10, 10]] : Mat ℝ) = some A ∧
      entry A 0 1 = 1 ∧ entry A 0 2 = Real.exp (-100)) := by
  have hgen : ∀ (n d : Nat) (points : Mat ℝ), IsMat points n d →
      ∃ A, create_similarity_matrix Real.exp n d points = some A ∧
        (∀ i j, i < n → j < n → i ≠ j →
          entry A i j = Real.exp (-(1 / 2) * ∑ c in Finset.range d,
            (entry points i c - entry points j c) ^ 2)) := by
    intro n d points hp
    refine ⟨_, create_similarity_matrix_eq Real.exp n d points hp, ?_⟩
    intro i j hi hj hij
    rw [entry_matOf n n _ i j hi hj, if_neg hij, kernel]
    congr 1
    have h05 : (-0.5 : ℝ) = -(1 / 2) := by norm_num
    rw [h05]
    congr 1
    apply Finset.sum_congr rfl
    intro c _
    ring
  constructor
  · intro n d points hp
    obtain ⟨A, hA, hent⟩ := hgen n d points hp
    refine ⟨A, hA, hent, ?_⟩
    intro i j hi hj hij hsame
    rw [hent i j hi hj hij]
    have hz : (∑ c in Finset.range d, (entry points i c - entry points j c) ^ 2) = 0 := by
      apply Finset.sum_eq_zero
      intro c hc
      rw [hsame c (Finset.mem_range.mp hc)]
      ring
    rw [hz, mul_zero, Real.exp_zero]
  · obtain ⟨A, hA, hent⟩ := hgen 3 2 [[0, 0], [0, 0], [10, 10]] ⟨rfl, by simp⟩
    refine ⟨A, hA, ?_, ?_⟩
    · rw [hent 0 1 (by decide) (by decide) (by decide)]
      simp [Finset.sum_range_succ, entry, mget]
    · rw [hent 0 2 (by decide) (by decide) (by decide)]
      congr 1
      simp [Finset.sum_range_succ, entry, mget]
      norm_num

theorem create_similarity_matrix_entries_witness :
    IsMat ([[1, 2], [4, 6]] : Mat ℝ) 2 2 ∧
      ∃ A, create_similarity_matrix Real.exp 2 2 ([[1, 2], [4, 6]] : Mat ℝ) = some A ∧
        (∀ i j, i < 2 → j < 2 → i ≠ j →
          entry A i j = Real.exp (-(1 / 2) * ∑ c in Finset.range 2,
            (entry ([[1, 2], [4, 6]] : Mat ℝ) i c - entry ([[1, 2], [4, 6]] : Mat ℝ) j c) ^ 2)) ∧
        (∀ i j, i < 2 → j < 2 → i ≠ j →
          (∀ c, c < 2 → entry ([[1, 2], [4, 6]] : Mat ℝ) i c =
            entry ([[1, 2], [4, 6]] : Mat ℝ) j c) → entry A i j = 1) :=
  ⟨⟨rfl, by simp⟩, create_similarity_matrix_entries.1 2 2 _ ⟨rfl, by simp⟩⟩

/-- C8: the matrix `D` of `create_diagonal_matrix` is zero off the diagonal, and `D[i][i]`
is the sum of row `i` of the matrix of `create_similarity_matrix` for the same dataset. -/
theorem create_diagonal_matrix_row_sums (n d : Nat) (points : Mat ℝ)
    (hp : IsMat points n d) :
    ∃ A D, create_similarity_matrix Real.exp n d points = some A ∧
      create_diagonal_matrix Real.exp n d points = some D ∧ IsMat D n n ∧
      (∀ i j, i < n → j < n → i ≠ j → entry D i j = 0) ∧
      (∀ i, i < n → entry D i i = ∑ j in Finset.range n, entry A i j) := by
  refine ⟨_, _, create_similarity_matrix_eq Real.exp n d points hp,
    create_diagonal_matrix_eq Real.exp n d points hp, isMat_matOf n n _, ?_, ?_⟩
  · intro i j hi hj hij
    rw [entry_matOf n n _ i j hi hj, if_neg hij]
  · intro i hi
    rw [entry_matOf n n _ i i hi hi, if_pos rfl]
    exact degree_eq_sum_entry Real.exp points d n i hi

theorem create_diagonal_matrix_row_sums_witness :
    IsMat ([[0, 0], [0, 0], [10, 10]] : Mat ℝ) 3 2 ∧
      ∃ A D, create_similarity_matrix Real.exp 3 2 ([[0, 0], [0, 0], [10, 10]] : Mat ℝ) =
          some A ∧
        create_diagonal_matrix Real.exp 3 2 ([[0, 0], [0, 0], [10, 10]] : Mat ℝ) = some D ∧
        IsMat D 3 3 ∧
        (∀ i j, i < 3 → j < 3 → i ≠ j → entry D i j = 0) ∧
        (∀ i, i < 3 → entry D i i = ∑ j in Finset.range 3, entry A i j) :=
  ⟨⟨rfl, by simp⟩, create_diagonal_matrix_row_sums 3 2 _ ⟨rfl, by simp⟩⟩

/-- C9: when every degree `d_i = Σ_j A[i][j]` is strictly positive,
`normalize_similarity_matrix` returns the `n × n` matrix with
`W[i][j] = A[i][j] / (sqrt d_i * sqrt d_j)`, `A` being the similarity matrix of the
dataset. -/
theorem normalize_similarity_matrix_formula (n d : Nat) (points A : Mat ℝ)
    (hp : IsMat points n d) (hA : create_similarity_matrix Real.exp n d points = some A)
    (hdeg : ∀ i, i < n → 0 < ∑ j in Finset.range n, entry A i j) :
    ∃ W, normalize_similarity_matrix Real.exp Real.sqrt n d points = some W ∧ IsMat W n n ∧
      ∀ i j, i < n → j < n →
        entry W i j = entry A i j /
          (Real.sqrt (∑ l in Finset.range n, entry A i l) *
            Real.sqrt (∑ l in Finset.range n, entry A j l)) := by
  rw [create_similarity_matrix_eq Real.exp n d points hp, Option.some.injEq] at hA
  subst hA
  refine ⟨_, normalize_similarity_matrix_eq Real.exp Real.sqrt n d points hp,
    isMat_matOf n n _, ?_⟩
  intro i j hi hj
  rw [entry_matOf n n _ i j hi hj, entry_matOf n n _ i j hi hj,
    ← degree_eq_sum_entry Real.exp points d n i hi,
    ← degree_eq_sum_entry Real.exp points d n j hj]
  have h1 : (1.0 : ℝ) = 1 := by norm_num
  rw [h1]
  ring

theorem normalize_similarity_matrix_formula_witness :
    ∃ W, normalize_similarity_matrix Real.exp Real.sqrt 2 2 ([[1, 2], [4, 6]] : Mat ℝ) =
        some W ∧ IsMat W 2 2 ∧
      ∀ i j, i < 2 → j < 2 →
        entry W i j =
          entry (matOf 2 2 (fun a b =>
            if a = b then 0 else kernel Real.exp ([[1, 2], [4, 6]] : Mat ℝ) 2 a b)) i j /
          (Real.sqrt (∑ l in Finset.range 2, entry (matOf 2 2 (fun a b =>
              if a = b then 0 else kernel Real.exp ([[1, 2], [4, 6]] : Mat ℝ) 2 a b)) i l) *
            Real.sqrt (∑ l in Finset.range 2, entry (matOf 2 2 (fun a b =>
              if a = b then 0 else kernel Real.exp ([[1, 2], [4, 6]] : Mat ℝ) 2 a b)) j l)) :=
  normalize_similarity_matrix_formula 2 2 [[1, 2], [4, 6]] _ ⟨rfl, by simp⟩
    (create_similarity_matrix_eq Real.exp 2 2 _ ⟨rfl, by simp⟩)
    (fun i hi => by
      rw [← degree_eq_sum_entry Real.exp _ 2 2 i hi]
      exact degree_pos _ 2 2 i (le_refl _) hi)

/-- Exact-real bound on the normalized matrix: when every degree is strictly positive and
cells are read as exact reals, every cell of the matrix `W` returned by
`normalize_similarity_matrix` satisfies `0 ≤ W[i][j] ≤ 1`.  On doubles the upper bound can
be missed by one unit in the last place, which this reading does not represent. -/
theorem normalize_similarity_matrix_bounds (n d : Nat) (points A : Mat ℝ)
    (hp : IsMat points n d) (hA : create_similarity_matrix Real.exp n d points = some A)
    (hdeg : ∀ i, i < n → 0 < ∑ j in Finset.range n, entry A i j) :
    ∃ W, normalize_similarity_matrix Real.exp Real.sqrt n d points = some W ∧
      ∀ i j, i < n → j < n → 0 ≤ entry W i j ∧ entry W i j ≤ 1 := by
  rw [create_similarity_matrix_eq Real.exp n d points hp, Option.some.injEq] at hA
  subst hA
  refine ⟨_, normalize_similarity_matrix_eq Real.exp Real.sqrt n d points hp, ?_⟩
  intro i j hi hj
  have hdi : 0 < degree Real.exp points d n i := by
    rw [degree_eq_sum_entry Real.exp points d n i hi]
    exact hdeg i hi
  have hdj : 0 < degree Real.exp points d n j := by
    rw [degree_eq_sum_entry Real.exp points d n j hj]
    exact hdeg j hj
  have hsi : 0 < Real.sqrt (degree Real.exp points d n i) := Real.sqrt_pos.mpr hdi
  have hsj : 0 < Real.sqrt (degree Real.exp points d n j) := Real.sqrt_pos.mpr hdj
  have ha0 := sim_cell_nonneg points d i j
  have hai := sim_cell_le_degree points d n i j hj
  have haj : (if i = j then (0 : ℝ) else kernel Real.exp points d i j) ≤
      degree Real.exp points d n j := by
    rw [sim_cell_comm points d i j]
    exact sim_cell_le_degree points d n j i hi
  have hle : (if i = j then (0 : ℝ) else kernel Real.exp points d i j) ≤
      Real.sqrt (degree Real.exp points d n i) * Real.sqrt (degree Real.exp points d n j) := by
    rw [← Real.sqrt_mul hdi.le, ← Real.sqrt_mul_self ha0]
    exact Real.sqrt_le_sqrt (mul_le_mul hai haj ha0 hdi.le)
  rw [entry_matOf n n _ i j hi hj]
  have h1 : (1.0 : ℝ) = 1 := by norm_num
  rw [h1]
  have heq : 1 / Real.sqrt (degree Real.exp points d n i) *
      (if i = j then (0 : ℝ) else kernel Real.exp points d i j) *
      (1 / Real.sqrt (degree Real.exp points d n j)) =
      (if i = j then (0 : ℝ) else kernel Real.exp points d i j) /
        (Real.sqrt (degree Real.exp points d n i) *
          Real.sqrt (degree Real.exp points d n j)) := by
    ring
  rw [heq]
  exact ⟨div_nonneg ha0 (mul_pos hsi hsj).le, (div_le_one (mul_pos hsi hsj)).mpr hle⟩

theorem normalize_similarity_matrix_bounds_witness :
    ∃ W, normalize_similarity_matrix Real.exp Real.sqrt 3 2
        ([[0, 0], [0, 0], [10, 10]] : Mat ℝ) = some W ∧
      ∀ i j, i < 3 → j < 3 → 0 ≤ entry W i j ∧ entry W i j ≤ 1 :=
  normalize_similarity_matrix_bounds 3 2 [[0, 0], [0, 0], [10, 10]] _ ⟨rfl, by simp⟩
    (create_similarity_matrix_eq Real.exp 3 2 _ ⟨rfl, by simp⟩)
    (fun i hi => by
      rw [← degree_eq_sum_entry Real.exp _ 2 3 i hi]
      exact degree_pos _ 2 3 i (by decide) hi)

/-- Exact-real symmetry of the normalized matrix: with cells read as exact reals, the
matrix `W` returned by `normalize_similarity_matrix` is symmetric.  On doubles `W[i][j]` and
`W[j][i]` are two roundings of the same product and can differ in the last place, which this
reading does not represent. -/
theorem normalize_similarity_matrix_symmetric (n d : Nat) (points A : Mat ℝ)
    (hp : IsMat points n d) (_hA : create_similarity_matrix Real.exp n d points = some A)
    (_hdeg : ∀ i, i < n → (∑ j in Finset.range n, entry A i j) ≠ 0) :
    ∃ W, normalize_similarity_matrix Real.exp Real.sqrt n d points = some W ∧ IsMat W n n ∧
      ∀ i j, i < n → j < n → entry W i j = entry W j i := by
  refine ⟨_, normalize_similarity_matrix_eq Real.exp Real.sqrt n d points hp,
    isMat_matOf n n _, ?_⟩
  intro i j hi hj
  rw [entry_matOf n n _ i j hi hj, entry_matOf n n _ j i hj hi, sim_cell_comm points d i j]
  ring

theorem normalize_similarity_matrix_symmetric_witness :
    ∃ W, normalize_similarity_matrix Real.exp Real.sqrt 3 2
        ([[0, 0], [0, 0], [10, 10]] : Mat ℝ) = some W ∧ IsMat W 3 3 ∧
      ∀ i j, i < 3 → j < 3 → entry W i j = entry W j i :=
  normalize_similarity_matrix_symmetric 3 2 [[0, 0], [0, 0], [10, 10]] _ ⟨rfl, by simp⟩
    (create_similarity_matrix_eq Real.exp 3 2 _ ⟨rfl, by simp⟩)
    (fun i hi => by
      rw [← degree_eq_sum_entry Real.exp _ 2 3 i hi]
      exact (degree_pos _ 2 3 i (by decide) hi).ne')

/-- C13: for `n × k` matrices `H` and `next_H`, `has_converged` returns true exactly when
`Σ_{i<n, j<k} (next_H[i][j] - H[i][j])^2 < 0.0001`; applied to two identical matrices it
returns true. -/
theorem has_converged_iff (k n : Nat) (H next_H : Mat ℝ) (hH : IsMat H n k)
    (hN : IsMat next_H n k) :
    (∃ b, has_converged k n H next_H = some b ∧
      (b = true ↔ (∑ i in Finset.range n, ∑ j in Finset.range k,
        (entry next_H i j - entry H i j) ^ 2) < 0.0001)) ∧
    has_converged k n H H = some true := by
  constructor
  · refine ⟨_, has_converged_isMat k n H next_H hH hN, ?_⟩
    rw [decide_eq_true_iff]
    simp only [EPSILON, sq]
  · rw [has_converged_isMat k n H H hH hH]
    congr 1
    rw [decide_eq_true_iff]
    simp only [sub_self, mul_zero, Finset.sum_const_zero, EPSILON]
    norm_num

theorem has_converged_iff_witness :
    IsMat ([[1, 2], [3, 4]] : Mat ℝ) 2 2 ∧ IsMat ([[1, 2], [3, 5]] : Mat ℝ) 2 2 ∧
      (∃ b, has_converged 2 2 ([[1, 2], [3, 4]] : Mat ℝ) [[1, 2], [3, 5]] = some b ∧
        (b = true ↔ (∑ i in Finset.range 2, ∑ j in Finset.range 2,
          (entry ([[1, 2], [3, 5]] : Mat ℝ) i j - entry ([[1, 2], [3, 4]] : Mat ℝ) i j) ^ 2) <
            0.0001)) ∧
      has_converged 2 2 ([[1, 2], [3, 4]] : Mat ℝ) [[1, 2], [3, 4]] = some true :=
  ⟨⟨rfl, by simp⟩, ⟨rfl, by simp⟩, has_converged_iff 2 2 _ _ ⟨rfl, by simp⟩ ⟨rfl, by simp⟩⟩

/-- C14: for every `n × n` matrix `A` and the `n × n` identity matrix `I`,
`matrix_multiply(A, I, n, n, n)` returns a matrix equal to `A`. -/
theorem matrix_multiply_identity (n : Nat) (A I : Mat ℝ) (hA : IsMat A n n)
    (hI : IsMat I n n)
    (hid : ∀ i j, i < n → j < n → entry I i j = if i = j then 1 else 0) :
    matrix_multiply A I n n n = some A := by
  conv_lhs => rw [eq_matOf_of_isMat A n n hA, eq_matOf_of_isMat I n n hI]
  rw [matrix_multiply_matOf _ _ n n n n n n n le_rfl le_rfl le_rfl le_rfl]
  conv_rhs => rw [eq_matOf_of_isMat A n n hA]
  congr 1
  apply matOf_congr
  intro i j hi hj
  have h1 : (∑ l in Finset.range n, entry A i l * entry I l j) =
      ∑ l in Finset.range n, entry A i l * (if l = j then (fun _ => (1 : ℝ)) l else 0) := by
    apply Finset.sum_congr rfl
    intro l hl
    rw [hid l j (Finset.mem_range.mp hl) hj]
  rw [h1, sum_mul_diag n j hj (fun _ => (1 : ℝ)) (fun l => entry A i l), mul_one]

theorem matrix_multiply_identity_witness :
    IsMat ([[1, 2], [3, 4]] : Mat ℝ) 2 2 ∧ IsMat ([[1, 0], [0, 1]] : Mat ℝ) 2 2 ∧
      matrix_multiply ([[1, 2], [3, 4]] : Mat ℝ) [[1, 0], [0, 1]] 2 2 2 =
        some [[1, 2], [3, 4]] :=
  ⟨⟨rfl, by simp⟩, ⟨rfl, by simp⟩,
    matrix_multiply_identity 2 _ _ ⟨rfl, by simp⟩ ⟨rfl, by simp⟩ (by
      intro i j hi hj
      have hi' : i = 0 ∨ i = 1 := by omega
      have hj' : j = 0 ∨ j = 1 := by omega
      rcases hi' with rfl | rfl <;> rcases hj' with rfl | rfl <;> simp [entry, mget])⟩

/-- C15: for every `r × c` matrix `A`, `transpose_matrix(A, r, c)` is a `c × r` matrix and
transposing it back with `transpose_matrix(·, c, r)` returns a matrix equal to `A`. -/
theorem transpose_matrix_twice (r c : Nat) (A : Mat ℝ) (hA : IsMat A r c) :
    ∃ T, transpose_matrix A r c = some T ∧ IsMat T c r ∧ transpose_matrix T c r = some A := by
  refine ⟨matOf c r (fun a b => entry A b a), ?_, isMat_matOf c r _, ?_⟩
  · conv_lhs => rw [eq_matOf_of_isMat A r c hA]
    exact transpose_matrix_matOf (entry A) r c r c le_rfl le_rfl
  · rw [transpose_matrix_matOf _ c r c r le_rfl le_rfl]
    exact congrArg some (eq_matOf_of_isMat A r c hA).symm

theorem transpose_matrix_twice_witness :
    IsMat ([[1, 2, 3], [4, 5, 6]] : Mat ℝ) 2 3 ∧
      ∃ T, transpose_matrix ([[1, 2, 3], [4, 5, 6]] : Mat ℝ) 2 3 = some T ∧ IsMat T 3 2 ∧
        transpose_matrix T 3 2 = some [[1, 2, 3], [4, 5, 6]] :=
  ⟨⟨rfl, by simp⟩, transpose_matrix_twice 2 3 _ ⟨rfl, by simp⟩⟩

/-- C17 fails on the code at `n = 3`, `k = 2`: the request
`transpose_matrix(H, k, num_points)` of `update_H` reads `H[0][2]`, a cell that the
two-cell row `H[0]` of the `3 × 2` matrix `H` does not have, so the run of `update_H` leaves
the bounds of `H`. -/
theorem update_H_reads_past_row :
    mget ([[1, 2], [3, 4], [5, 6]] : Mat ℝ) 0 2 = none ∧
      transpose_matrix ([[1, 2], [3, 4], [5, 6]] : Mat ℝ) 2 3 = none ∧
      update_H 2 3 ([[0, 1, 1], [1, 0, 1], [1, 1, 0]] : Mat ℝ) [[1, 2], [3, 4], [5, 6]] =
        none := by
  have hH : IsMat ([[1, 2], [3, 4], [5, 6]] : Mat ℝ) 3 2 := ⟨rfl, by simp⟩
  refine ⟨rfl, ?_, ?_⟩
  · rw [eq_matOf_of_isMat _ 3 2 hH]
    exact transpose_matrix_none _ 3 2 (by decide) (by decide)
  · exact update_H_none 2 3 _ _ (by decide) (by decide) ⟨rfl, by simp⟩ hH

/-- C20: in exact real arithmetic, for a dataset of `n ≥ 2` points every degree `D[i][i]`
of `create_diagonal_matrix` is strictly positive, and so is its square root, by which
`normalize_similarity_matrix` divides; a zero degree arises only for `n ≤ 1`. -/
theorem create_diagonal_matrix_degree_pos (n d : Nat) (points : Mat ℝ)
    (hp : IsMat points n d) :
    ∃ D, create_diagonal_matrix Real.exp n d points = some D ∧
      (2 ≤ n → ∀ i, i < n → 0 < entry D i i ∧ 0 < Real.sqrt (entry D i i)) ∧
      (∀ i, i < n → entry D i i = 0 → n ≤ 1) := by
  refine ⟨_, create_diagonal_matrix_eq Real.exp n d points hp, ?_, ?_⟩
  · intro hn i hi
    rw [entry_matOf n n _ i i hi hi, if_pos rfl]
    have h := degree_pos points d n i hn hi
    exact ⟨h, Real.sqrt_pos.mpr h⟩
  · intro i hi h0
    rw [entry_matOf n n _ i i hi hi, if_pos rfl] at h0
    by_contra hn
    have h := degree_pos points d n i (by omega) hi
    rw [h0] at h
    exact lt_irrefl _ h

theorem create_diagonal_matrix_degree_pos_witness :
    IsMat ([[0, 0], [0, 0], [10, 10]] : Mat ℝ) 3 2 ∧
      ∃ D, create_diagonal_matrix Real.exp 3 2 ([[0, 0], [0, 0], [10, 10]] : Mat ℝ) = some D ∧
        (2 ≤ 3 → ∀ i, i < 3 → 0 < entry D i i ∧ 0 < Real.sqrt (entry D i i)) ∧
        (∀ i, i < 3 → entry D i i = 0 → 3 ≤ 1) :=
  ⟨⟨rfl, by simp⟩, create_diagonal_matrix_degree_pos 3 2 _ ⟨rfl, by simp⟩⟩

/-- C12, as stated, fails: for the `norm_matrix` `W = [[-3]]` and the nonnegative
`H = [[1]]` (`n = k = 1`) the denominator `(H * Hᵀ) * H` is `[[1]]`, strictly positive, and
`update_H(W, H)` is `[[-1]]`, whose cell is negative. -/
theorem update_H_negative_counterexample :
    update_H_denominator 1 1 ([[1]] : Mat ℝ) = some [[1]] ∧
      0 < entry ([[1]] : Mat ℝ) 0 0 ∧
      update_H 1 1 ([[-3]] : Mat ℝ) [[1]] = some [[-1]] ∧
      entry ([[-1]] : Mat ℝ) 0 0 < 0 := by
  refine ⟨?_, by simp [entry, mget], update_H_cycle_pos, by simp [entry, mget]⟩
  have h1 : ([[1]] : Mat ℝ) = matOf 1 1 (fun _ _ => 1) := rfl
  have hd : update_H_denominator 1 1 (matOf 1 1 (fun _ _ => (1 : ℝ))) = some [[1]] := by
    rw [update_H_denominator, transpose_matrix_matOf _ 1 1 1 1 le_rfl le_rfl]
    simp only [Option.some_bind, multiply]
    rw [matrix_multiply_matOf _ _ 1 1 1 1 1 1 1 le_rfl le_rfl le_rfl le_rfl]
    simp only [Option.some_bind]
    rw [matrix_multiply_matOf _ _ 1 1 1 1 1 1 1 le_rfl le_rfl le_rfl le_rfl, matOf_one]
    norm_num
  rw [← h1] at hd
  exact hd

/-- C12, amended: with cells read as exact reals, for an entrywise nonnegative `n × n`
`norm_matrix` `W` and an entrywise nonnegative `n × k` matrix `H0`: if the cells of the
denominator that `update_H` computes are positive, every cell of `update_H(W, H0)` is
nonnegative; every iterate whose predecessors all had positive denominators is entrywise
nonnegative; and the matrix returned by `calculate_symnmf` is one of the iterates
`1 .. 301`, hence nonnegative under the same condition. -/
theorem update_H_nonneg (k n : Nat) (W H0 : Mat ℝ) (hW : IsMat W n n) (hH : IsMat H0 n k)
    (hWnn : ∀ i j, i < n → j < n → 0 ≤ entry W i j)
    (hHnn : ∀ i j, i < n → j < k → 0 ≤ entry H0 i j) :
    (∀ M Den, update_H k n W H0 = some M → update_H_denominator k n H0 = some Den →
      (∀ i j, i < n → j < k → 0 < entry Den i j) →
      ∀ i j, i < n → j < k → 0 ≤ entry M i j) ∧
    (∀ m Hm, iterates k n W H0 m = some Hm →
      (∀ l, l < m → ∀ Hl Den, iterates k n W H0 l = some Hl →
        update_H_denominator k n Hl = some Den → ∀ i j, i < n → j < k → 0 < entry Den i j) →
      ∀ i j, i < n → j < k → 0 ≤ entry Hm i j) ∧
    (∀ M, calculate_symnmf k n W H0 = some M →
      ∃ m, 1 ≤ m ∧ m ≤ 301 ∧ iterates k n W H0 m = some M ∧
        ((∀ l, l < m → ∀ Hl Den, iterates k n W H0 l = some Hl →
          update_H_denominator k n Hl = some Den →
          ∀ i j, i < n → j < k → 0 < entry Den i j) →
        ∀ i j, i < n → j < k → 0 ≤ entry M i j)) := by
  refine ⟨?_, ?_, ?_⟩
  · intro M Den hM hD hpos
    exact update_H_nonneg_of_pos k n W H0 M Den hW hH hWnn hHnn hM hD hpos
  · exact iterates_nonneg k n W H0 hW hH hWnn hHnn
  · intro M hM
    simp only [calculate_symnmf, Option.map_eq_some'] at hM
    obtain ⟨s, hs, rfl⟩ := hM
    obtain ⟨_, h2, h3, _⟩ := calculate_symnmf_run_iterates k n W H0 hH s hs
    refine ⟨s.iter + 1, by omega, ?_, h2, ?_⟩
    · simp only [MAX_ITER] at h3
      omega
    · exact iterates_nonneg k n W H0 hW hH hWnn hHnn (s.iter + 1) s.next_H h2

theorem update_H_nonneg_witness :
    update_H 1 1 ([[1]] : Mat ℝ) [[2]] = some [[5 / 4]] ∧
      update_H_denominator 1 1 ([[2]] : Mat ℝ) = some [[8]] ∧
      ∀ i j, i < 1 → j < 1 → 0 ≤ entry ([[5 / 4]] : Mat ℝ) i j := by
  have hW : IsMat ([[1]] : Mat ℝ) 1 1 := ⟨rfl, by simp⟩
  have hH : IsMat ([[2]] : Mat ℝ) 1 1 := ⟨rfl, by simp⟩
  have hnn : ∀ (x : ℝ), 0 ≤ x → ∀ i j, i < 1 → j < 1 → 0 ≤ entry ([[x]] : Mat ℝ) i j := by
    intro x hx i j hi hj
    have hi0 : i = 0 := by omega
    have hj0 : j = 0 := by omega
    subst hi0
    subst hj0
    simpa [entry, mget] using hx
  have hpos : ∀ i j, i < 1 → j < 1 → 0 < entry ([[8]] : Mat ℝ) i j := by
    intro i j hi hj
    have hi0 : i = 0 := by omega
    have hj0 : j = 0 := by omega
    subst hi0
    subst hj0
    simp [entry, mget]
  have hM : update_H 1 1 ([[1]] : Mat ℝ) [[2]] = some [[5 / 4]] := by
    rw [update_H_one]
    norm_num [BETA]
  have hD : update_H_denominator 1 1 ([[2]] : Mat ℝ) = some [[8]] := by
    have h2 : ([[2]] : Mat ℝ) = matOf 1 1 (fun _ _ => 2) := rfl
    rw [update_H_denominator, h2, transpose_matrix_matOf _ 1 1 1 1 le_rfl le_rfl]
    simp only [Option.some_bind, multiply]
    rw [matrix_multiply_matOf _ _ 1 1 1 1 1 1 1 le_rfl le_rfl le_rfl le_rfl]
    simp only [Option.some_bind]
    rw [matrix_multiply_matOf _ _ 1 1 1 1 1 1 1 le_rfl le_rfl le_rfl le_rfl, matOf_one]
    norm_num
  exact ⟨hM, hD, (update_H_nonneg 1 1 [[1]] [[2]] hW hH (hnn 1 (by norm_num))
    (hnn 2 (by norm_num))).1 _ _ hM hD hpos⟩

/-- C18 fails on the code: `get_dimensions` consumes the first line while it counts the
commas and then counts only the lines after it.  For the two-line file `1,2⏎3,4⏎` it
returns `1` with `num_features = 2` but `num_points = 1`, not `2`; for the one-line file
`1,2⏎` it reports `num_points = 0`. -/
theorem get_dimensions_skips_first_line :
    get_dimensions ['1', ',', '2', '\n', '3', ',', '4', '\n'] =
        { ret := 1, num_points := 1, num_features := 2 } ∧
      get_dimensions ['1', ',', '2', '\n'] =
        { ret := 1, num_points := 0, num_features := 2 } :=
  ⟨rfl, rfl⟩

/-- C16: for a `rows1 × cols1` matrix `A` and a `cols1 × cols2` matrix `B`,
`matrix_multiply(A, B, rows1, cols1, cols2)` returns the `rows1 × cols2` matrix with cell
`(i, j)` equal to `Σ_{l<cols1} A[i][l] * B[l][j]`; run on a heap that holds `A` and `B`, it
returns a newly allocated matrix with these cells and leaves `A`, `B` and every other
matrix of the heap unchanged. -/
theorem matrix_multiply_product (rows1 cols1 cols2 : Nat) (A B : Mat ℝ)
    (hA : IsMat A rows1 cols1) (hB : IsMat B cols1 cols2) :
    ∃ M, matrix_multiply A B rows1 cols1 cols2 = some M ∧ IsMat M rows1 cols2 ∧
      (∀ i j, i < rows1 → j < cols2 →
        entry M i j = ∑ l in Finset.range cols1, entry A i l * entry B l j) ∧
      (∀ (h : Heap ℝ) (mat1 mat2 : Nat), h[mat1]? = some A → h[mat2]? = some B →
        ∃ h' result, matrix_multiply_heap h mat1 mat2 rows1 cols1 cols2 = some (h', result) ∧
          h'[result]? = some M ∧ h'[mat1]? = some A ∧ h'[mat2]? = some B ∧
          ∀ p, p < h.length → h'[p]? = h[p]?) := by
  have hM : matrix_multiply A B rows1 cols1 cols2 =
      some (matOf rows1 cols2 (fun i j =>
        ∑ l in Finset.range cols1, entry A i l * entry B l j)) := by
    conv_lhs => rw [eq_matOf_of_isMat A rows1 cols1 hA, eq_matOf_of_isMat B cols1 cols2 hB]
    exact matrix_multiply_matOf _ _ rows1 cols1 cols1 cols2 rows1 cols1 cols2
      le_rfl le_rfl le_rfl le_rfl
  refine ⟨_, hM, isMat_matOf rows1 cols2 _, ?_, ?_⟩
  · intro i j hi hj
    rw [entry_matOf rows1 cols2 _ i j hi hj]
  · intro h mat1 mat2 h1 h2
    refine ⟨_, h.length, ?_, get?_mid_self h [] _, get?_mid_left h [] _ A mat1 h1,
      get?_mid_left h [] _ B mat2 h2, ?_⟩
    · rw [matrix_multiply_heap_eq h mat1 mat2 rows1 cols1 cols2 A B h1 h2, hM]
      rfl
    · intro p hp
      exact List.getElem?_append_left hp

theorem matrix_multiply_product_witness :
    IsMat ([[1, 2], [3, 4]] : Mat ℝ) 2 2 ∧ IsMat ([[0, 1], [1, 0]] : Mat ℝ) 2 2 ∧
      ∃ M, matrix_multiply ([[1, 2], [3, 4]] : Mat ℝ) [[0, 1], [1, 0]] 2 2 2 = some M ∧
        IsMat M 2 2 ∧
        (∀ i j, i < 2 → j < 2 →
          entry M i j = ∑ l in Finset.range 2,
            entry ([[1, 2], [3, 4]] : Mat ℝ) i l * entry ([[0, 1], [1, 0]] : Mat ℝ) l j) ∧
        (∀ (h : Heap ℝ) (mat1 mat2 : Nat), h[mat1]? = some [[1, 2], [3, 4]] →
          h[mat2]? = some [[0, 1], [1, 0]] →
          ∃ h' result, matrix_multiply_heap h mat1 mat2 2 2 2 = some (h', result) ∧
            h'[result]? = some M ∧ h'[mat1]? = some [[1, 2], [3, 4]] ∧
            h'[mat2]? = some [[0, 1], [1, 0]] ∧
            ∀ p, p < h.length → h'[p]? = h[p]?) :=
  ⟨⟨rfl, by simp⟩, ⟨rfl, by simp⟩, matrix_multiply_product 2 2 2 _ _ ⟨rfl, by simp⟩ ⟨rfl, by simp⟩⟩

/-- C19: run on a heap in which `norm_matrix` and `H` are distinct buffers holding `W` and
the `n × k` matrix `H0`, `calculate_symnmf` leaves `norm_matrix` equal to `W`; the matrix it
returns is an iterate `H_m` with `m ≥ 1`, and the caller's buffer `H` then holds `H_{m-1}`,
which is `H0` itself when `m = 1`.  The run on the heap returns whenever the run on the
matrices does, with the same matrix. -/
theorem calculate_symnmf_frame (h : Heap ℝ) (k n pW pH : Nat) (W H0 : Mat ℝ)
    (hne : pW ≠ pH) (hW : h[pW]? = some W) (hH : h[pH]? = some H0) (hdim : IsMat H0 n k) :
    (∀ h' ret, calculate_symnmf_heap h k n pW pH = some (h', ret) →
      h'[pW]? = some W ∧
      ∃ m Hm, 1 ≤ m ∧ iterates k n W H0 m = some Hm ∧ h'[ret]? = some Hm ∧
        calculate_symnmf k n W H0 = some Hm ∧
        h'[pH]? = iterates k n W H0 (m - 1) ∧ (m = 1 → h'[pH]? = some H0)) ∧
    (∀ M, calculate_symnmf k n W H0 = some M →
      ∃ h' ret, calculate_symnmf_heap h k n pW pH = some (h', ret) ∧ h'[ret]? = some M) := by
  have heq := calculate_symnmf_heap_eq h k n pW pH W H0 hne hW hH
  constructor
  · intro h' ret hrun
    rw [hrun, Option.map_some'] at heq
    cases hs : calculate_symnmf_run k n W H0 with
    | none => rw [hs] at heq; simp at heq
    | some s =>
      rw [hs, Option.map_some', Option.some.injEq] at heq
      simp only [Prod.mk.injEq] at heq
      obtain ⟨e1, e2, e3⟩ := heq
      obtain ⟨i1, i2, _, _⟩ := calculate_symnmf_run_iterates k n W H0 hdim s hs
      refine ⟨e1, s.iter + 1, s.next_H, by omega, i2, e3, ?_, ?_, ?_⟩
      · simp only [calculate_symnmf, hs, Option.map_some']
      · rw [e2, Nat.add_sub_cancel, i1]
      · intro hm
        have h0 : s.iter = 0 := by omega
        rw [h0] at i1
        simp only [iterates, Option.some.injEq] at i1
        rw [e2, i1]
  · intro M hM
    simp only [calculate_symnmf, Option.map_eq_some'] at hM
    obtain ⟨s, hs, rfl⟩ := hM
    rw [hs, Option.map_some'] at heq
    cases hr : calculate_symnmf_heap h k n pW pH with
    | none => rw [hr] at heq; simp at heq
    | some r =>
      rw [hr, Option.map_some', Option.some.injEq] at heq
      simp only [Prod.mk.injEq] at heq
      exact ⟨r.1, r.2, rfl, heq.2.2⟩

theorem calculate_symnmf_frame_witness :
    (∀ h' ret, calculate_symnmf_heap ([[[0, 1], [1, 0]], [[1, 1], [1, 1]]] : Heap ℝ) 2 2 0 1 =
        some (h', ret) →
      h'[0]? = some [[0, 1], [1, 0]] ∧
      ∃ m Hm, 1 ≤ m ∧
        iterates 2 2 ([[0, 1], [1, 0]] : Mat ℝ) [[1, 1], [1, 1]] m = some Hm ∧
        h'[ret]? = some Hm ∧
        calculate_symnmf 2 2 ([[0, 1], [1, 0]] : Mat ℝ) [[1, 1], [1, 1]] = some Hm ∧
        h'[1]? = iterates 2 2 ([[0, 1], [1, 0]] : Mat ℝ) [[1, 1], [1, 1]] (m - 1) ∧
        (m = 1 → h'[1]? = some [[1, 1], [1, 1]])) ∧
    (∀ M, calculate_symnmf 2 2 ([[0, 1], [1, 0]] : Mat ℝ) [[1, 1], [1, 1]] = some M →
      ∃ h' ret, calculate_symnmf_heap ([[[0, 1], [1, 0]], [[1, 1], [1, 1]]] : Heap ℝ) 2 2 0 1 =
          some (h', ret) ∧ h'[ret]? = some M) :=
  calculate_symnmf_frame [[[0, 1], [1, 0]], [[1, 1], [1, 1]]] 2 2 0 1 _ _ (by decide) rfl rfl
    ⟨rfl, by simp⟩

end Claims

end SymNMF
